import Mathlib

/-!
Verification of the `elementpath` Unicode code-point subset module
(`elementpath/regex/unicode_subsets.py`).

The development shallowly embeds the Python module: a code point entry is
either a scalar integer or a half-open range (a pair), a `UnicodeSubset`
is an ordered list of such entries, and the mutating operations `add`,
`discard`, membership, `complement` and the set algebra operators are
translated as pure functions on entry lists.  Machine integers are `Nat`
(all values involved are non-negative Unicode scalars); fallible paths
(`ValueError` on a malformed code point, `RegexError` in the class
parser) return `Option`/`Except`.
-/

namespace UniSub

/-- Value of Python's `sys.maxunicode`. -/
def maxunicode : Nat := 1114111

/-- A `CodePoint` entry of a subset: either a scalar integer or a half-open
`(lo, hi)` pair, mirroring `CodePoint = Union[int, Tuple[int, int]]`. -/
inductive CodePoint where
  | int (v : Nat)
  | rng (lo hi : Nat)
deriving DecidableEq, Repr

/-- Inclusive lower bound of an entry: Python's `cp0` (`cp` itself for an
int, `cp[0]` for a tuple). -/
def cp0 : CodePoint → Nat
  | .int v => v
  | .rng lo _ => lo

/-- Exclusive upper bound of an entry: Python's `cp1` (`cp + 1` for an int,
`cp[1]` for a tuple). -/
def cp1 : CodePoint → Nat
  | .int v => v + 1
  | .rng _ hi => hi

@[simp] theorem cp0_int (v : Nat) : cp0 (.int v) = v := rfl

@[simp] theorem cp0_rng (lo hi : Nat) : cp0 (.rng lo hi) = lo := rfl

@[simp] theorem cp1_int (v : Nat) : cp1 (.int v) = v + 1 := rfl

@[simp] theorem cp1_rng (lo hi : Nat) : cp1 (.rng lo hi) = hi := rfl

/-- An entry is well formed when it denotes a nonempty span inside the
Unicode domain; for a scalar `v` this is `v ≤ maxunicode`, for a range
`(lo, hi)` it is `lo < hi ≤ maxunicode + 1`, exactly the validation
performed by `UnicodeSubset.add`/`discard`. -/
def WF (c : CodePoint) : Prop := cp0 c < cp1 c ∧ cp1 c ≤ maxunicode + 1

instance : DecidablePred WF := fun c =>
  inferInstanceAs (Decidable (cp0 c < cp1 c ∧ cp1 c ≤ maxunicode + 1))

/-- Semantic membership of a scalar in one entry. -/
def covers (n : Nat) (c : CodePoint) : Bool := decide (cp0 c ≤ n) && decide (n < cp1 c)

/-- Semantic membership of a scalar in an entry list. -/
def memSem (n : Nat) (l : List CodePoint) : Bool := l.any (covers n)

/-- The scanning membership test of `UnicodeSubset.__contains__` for an
integer argument: walk the entries, return false as soon as an entry's
start exceeds the value. -/
def containsCp (value : Nat) : List CodePoint → Bool
  | [] => false
  | .rng lo hi :: rest =>
    if lo > value then false
    else if hi ≤ value then containsCp value rest
    else true
  | .int v :: rest =>
    if v > value then false
    else if v = value then true
    else containsCp value rest

/-- The entry-walking loop of `UnicodeSubset.add` after validation:
`s`/`e` are the running `start_cp`/`end_cp`, `value` the original argument
(inserted verbatim in the insert/append branches). -/
def addLoop (s e : Nat) (value : CodePoint) : List CodePoint → List CodePoint
  | [] => [value]
  | c :: rest =>
    if e < cp0 c then value :: c :: rest
    else if s > cp1 c then c :: addLoop s e value rest
    else if e > cp1 c then
      match rest with
      | [] => [.rng (min (cp0 c) s) e]
      | next :: rest' =>
        if e ≤ cp0 next then .rng (min (cp0 c) s) e :: next :: rest'
        else .rng (min (cp0 c) s) (cp0 next) :: addLoop (cp0 next) e value (next :: rest')
    else if s < cp0 c then .rng s (cp1 c) :: rest
    else c :: rest

/-- `UnicodeSubset.add`: validate the argument (`ValueError`, i.e. `none`,
when out of domain) and run the merge walk. -/
def addFull (value : CodePoint) (l : List CodePoint) : Option (List CodePoint) :=
  match value with
  | .int v => if v ≤ maxunicode then some (addLoop v (v + 1) value l) else none
  | .rng lo hi =>
    if lo < hi ∧ hi ≤ maxunicode + 1 then some (addLoop lo hi value l) else none

/-- Unfolding equation of `addLoop` on a nonempty list. -/
theorem addLoop_cons (s e : Nat) (value c : CodePoint) (rest : List CodePoint) :
    addLoop s e value (c :: rest) =
      (if e < cp0 c then value :: c :: rest
      else if s > cp1 c then c :: addLoop s e value rest
      else if e > cp1 c then
        match rest with
        | [] => [.rng (min (cp0 c) s) e]
        | next :: rest' =>
          if e ≤ cp0 next then .rng (min (cp0 c) s) e :: next :: rest'
          else .rng (min (cp0 c) s) (cp0 next) :: addLoop (cp0 next) e value (next :: rest')
      else if s < cp0 c then .rng s (cp1 c) :: rest
      else c :: rest) := by
  cases rest <;> rfl

/-- The reversed-order loop of `UnicodeSubset.discard`, operating on the
reversed entry list (the Python loop runs `k` from the last index down to
0); the result is also reversed. -/
def discardRevLoop (s e : Nat) : List CodePoint → List CodePoint
  | [] => []
  | c :: rest =>
    if s ≥ cp1 c then c :: rest
    else if e ≥ cp1 c then
      if s ≤ cp0 c then discardRevLoop s e rest
      else if s - cp0 c > 1 then .rng (cp0 c) s :: discardRevLoop s e rest
      else .int (cp0 c) :: discardRevLoop s e rest
    else if e > cp0 c then
      if s ≤ cp0 c then
        (if cp1 c - e > 1 then CodePoint.rng e (cp1 c) else CodePoint.int (cp1 c - 1)) ::
          discardRevLoop s e rest
      else
        (if cp1 c - e > 1 then CodePoint.rng e (cp1 c) else CodePoint.int (cp1 c - 1)) ::
          (if s - cp0 c > 1 then CodePoint.rng (cp0 c) s else CodePoint.int (cp0 c)) ::
          discardRevLoop s e rest
    else c :: discardRevLoop s e rest

/-- `UnicodeSubset.discard`: validate, then run the reverse walk. -/
def discardFull (value : CodePoint) (l : List CodePoint) : Option (List CodePoint) :=
  match value with
  | .int v =>
    if v ≤ maxunicode then some ((discardRevLoop v (v + 1) l.reverse).reverse) else none
  | .rng lo hi =>
    if lo < hi ∧ hi ≤ maxunicode + 1 then
      some ((discardRevLoop lo hi l.reverse).reverse)
    else none

/-- Body of `UnicodeSubset.complement`: `last` is the running `last_cp`;
`none` models the `ValueError` raised on unordered code points. -/
def complementAux (last : Nat) : List CodePoint → Option (List CodePoint)
  | [] =>
    some (if last < maxunicode then [.rng last (maxunicode + 1)]
          else if last = maxunicode then [.int maxunicode] else [])
  | c :: rest =>
    if cp0 c < last then none
    else
      (complementAux (cp1 c) rest).map (fun r =>
        (if cp0 c - last > 2 then [CodePoint.rng last (cp0 c)]
         else if cp0 c - last = 2 then [CodePoint.int last, CodePoint.int (last + 1)]
         else if cp0 c - last = 1 then [CodePoint.int last]
         else []) ++ r)

/-- `UnicodeSubset.complement()` collected into a list. -/
def complementList (l : List CodePoint) : Option (List CodePoint) := complementAux 0 l

/-- Expansion of one entry into its ascending scalar code points
(`UnicodeSubset.__iter__` on a single entry). -/
def expandCp : CodePoint → List Nat
  | .int v => [v]
  | .rng lo hi => List.range' lo (hi - lo)

/-- `UnicodeSubset.__iter__`: all scalar code points in entry order. -/
def scalarsOf (l : List CodePoint) : List Nat := l.flatMap expandCp

/-- `UnicodeSubset.__ior__` with a `UnicodeSubset` operand: add the
operand's entries in reversed (descending) order; `__or__` copies first,
which for lists of immutable entries is the identity on the value. -/
def iorList (a b : List CodePoint) : Option (List CodePoint) :=
  b.reverse.foldlM (fun acc c => addFull c acc) a

/-- `UnicodeSubset.__isub__` with a `UnicodeSubset` operand: discard the
operand's entries in reversed order. -/
def isubList (a b : List CodePoint) : Option (List CodePoint) :=
  b.reverse.foldlM (fun acc c => discardFull c acc) a

/-- `UnicodeSubset.__iand__`: compute `self - other` first, then discard
each scalar of that difference from `self`. -/
def iandList (a b : List CodePoint) : Option (List CodePoint) :=
  (isubList a b).bind (fun d =>
    (scalarsOf d).foldlM (fun acc v => discardFull (.int v) acc) a)

/-- One step of `__ixor__`: discard the scalar if present, else add it. -/
def ixorStep (acc : List CodePoint) (v : Nat) : Option (List CodePoint) :=
  if containsCp v acc then discardFull (.int v) acc else addFull (.int v) acc

/-- `UnicodeSubset.__ixor__` with a distinct `UnicodeSubset` operand:
for each scalar of the operand, discard it if present, otherwise add it.
(`A ^ A` goes through this path because `__xor__` first copies `A`, so
the `other is self` short-circuit does not fire.) -/
def ixorList (a b : List CodePoint) : Option (List CodePoint) :=
  (scalarsOf b).foldlM ixorStep a

/-- Python's `sorted(codepoints, key=code_point_order)` used by the
`UnicodeSubset` constructor and the `codepoints` setter: a stable sort by
an entry's starting code point. -/
def sortByKey (l : List CodePoint) : List CodePoint :=
  l.insertionSort (fun a b => cp0 a ≤ cp0 b)

/-- Error taxonomy of `iterparse_character_subset` (`RegexError`), keyed by
the reported position so that error determinism and positionality are
visible in the model. -/
inductive RegexErr where
  | badRange (pos : Nat)
  | badChar (pos : Nat)
deriving DecidableEq, Repr

/-- Stable descending sort by an entry's starting code point
(`sorted(..., key=code_point_order, reverse=True)`). -/
def sortDescByKey (l : List CodePoint) : List CodePoint :=
  l.insertionSort (fun a b => cp0 b ≤ cp0 a)

/-- Modelled from the spec: `iter_code_points(..., reverse=True)` lives in
`elementpath/regex/common.py`, which is not among the sources; per the
spec, building a `UnicodeSubset` from an iterable feeds the operand's
entries to `add`, processed in descending order, starting from an empty
set. -/
def fromSeq (l : List CodePoint) : Option (List CodePoint) :=
  (sortDescByKey l).foldlM (fun acc c => addFull c acc) []

/-- Both complements of the spec sentence `A.complement().complement() == A`:
build a subset from the sequence yielded by `complement()`, take that
subset's `complement()`, and build a subset from it again. -/
def doubleComplement (l : List CodePoint) : Option (List CodePoint) := do
  let r1 ← complementList l
  let b ← fromSeq r1
  let r2 ← complementList b
  fromSeq r2

/-- Python tuple comparison of dot-separated version numbers parsed into
integer tuples: lexicographic, a strict prefix comparing less. -/
def lexLt : List Nat → List Nat → Bool
  | [], [] => false
  | [], _ :: _ => true
  | _ :: _, [] => false
  | x :: xs, y :: ys => if x < y then true else if y < x then false else lexLt xs ys

/-- Modelled from the spec: the raw categories module
(`elementpath.regex.unicode_categories`, loaded via `import_module`) is
not among the sources.  Per the spec it provides a baseline name to raw
entry-list mapping, a minimum Unicode version, and version-tagged diffs,
each category diff being an `(excluded, inserted)` pair of entry lists. -/
structure CategoriesModule where
  minVersion : List Nat
  rawCategories : List (String × List CodePoint)
  diffs : List (List Nat × List (String × (List CodePoint × List CodePoint)))

/-- The merge walk of `install_unicode_categories` for one category of one
diff: walk the raw entries, skipping those present in the exclusion list,
and drain insertions whose start does not exceed the current entry's start
before appending it; leftover insertions are appended at the end. -/
def mergeDiff (exclude : List CodePoint) : List CodePoint → List CodePoint → List CodePoint
  | ins, [] => ins
  | ins, cp :: rest =>
    if cp ∈ exclude then mergeDiff exclude ins rest
    else
      ins.takeWhile (fun a => cp0 a ≤ cp0 cp) ++
        cp :: mergeDiff exclude (ins.dropWhile (fun a => cp0 a ≤ cp0 cp)) rest

/-- Lookup in an association-list table (a Python dict read, `none` for a
`KeyError`). -/
def lookupCat (tbl : List (String × List CodePoint)) (k : String) : Option (List CodePoint) :=
  (tbl.find? (fun p => p.1 = k)).map (fun p => p.2)

/-- Assignment to an existing key of an association-list table. -/
def setCat (tbl : List (String × List CodePoint)) (k : String) (v : List CodePoint) :
    List (String × List CodePoint) :=
  tbl.map (fun p => if p.1 = k then (k, v) else p)

/-- Apply one version diff to the raw categories table; `none` when the
diff names a category absent from the table (Python `KeyError`). -/
def applyCatDiff (tbl : List (String × List CodePoint)) :
    List (String × (List CodePoint × List CodePoint)) →
    Option (List (String × List CodePoint))
  | [] => some tbl
  | (k, exIns) :: rest =>
    (lookupCat tbl k).bind fun raw =>
      applyCatDiff (setCat tbl k (mergeDiff exIns.1 exIns.2 raw)) rest

/-- Apply the version diffs in order, stopping (Python `break`) at the
first diff whose version exceeds the runtime's Unicode version. -/
def applyDiffs (runtimeVersion : List Nat) :
    List (List Nat × List (String × (List CodePoint × List CodePoint))) →
    List (String × List CodePoint) → Option (List (String × List CodePoint))
  | [], tbl => some tbl
  | (ver, dm) :: rest, tbl =>
    if lexLt runtimeVersion ver then some tbl
    else (applyCatDiff tbl dm).bind (applyDiffs runtimeVersion rest)

/-- Process-wide registry state touched by `install_unicode_categories`:
the `_unicode_categories` table and the two derived shortcut subsets
(`D_SHORTCUT_SET`, `W_SHORTCUT_SET`). -/
structure RegistryState where
  categories : List (String × List CodePoint)
  dShortcut : List CodePoint
  wShortcut : List CodePoint
deriving DecidableEq, Repr

/-- Failures of `install_unicode_categories`: the minimum-version
`ValueError`, or a `KeyError` on a category name. -/
inductive InstallError where
  | versionTooHigh
  | missingCategory
deriving DecidableEq, Repr

/-- `install_unicode_categories`: check the provider's minimum version
against the runtime's Unicode version, apply the version diffs, swap in
the rebuilt table, and recompute the two shortcut subsets (`D` copies
category `Nd` through the sorting `codepoints` setter, `W` is assigned
the concatenation of the `L`, `M`, `N`, `S` entry lists through the same
sorting setter).  The returned pair is the raised error (if any) together
with the registry state after the call, so that partial mutation before
an exception stays observable. -/
def installUnicodeCategories (runtimeVersion : List Nat) (m : CategoriesModule)
    (st : RegistryState) : Option InstallError × RegistryState :=
  if lexLt runtimeVersion m.minVersion then (some .versionTooHigh, st)
  else
    match applyDiffs runtimeVersion m.diffs m.rawCategories with
    | none => (some .missingCategory, st)
    | some raw =>
      match lookupCat (raw.map (fun p => (p.1, sortByKey p.2))) "Nd" with
      | none =>
        (some .missingCategory, { st with categories := raw.map (fun p => (p.1, sortByKey p.2)) })
      | some nd =>
        match lookupCat (raw.map (fun p => (p.1, sortByKey p.2))) "L",
            lookupCat (raw.map (fun p => (p.1, sortByKey p.2))) "M",
            lookupCat (raw.map (fun p => (p.1, sortByKey p.2))) "N",
            lookupCat (raw.map (fun p => (p.1, sortByKey p.2))) "S" with
        | some lEnt, some mEnt, some nEnt, some sEnt =>
          (none, { categories := raw.map (fun p => (p.1, sortByKey p.2)),
                   dShortcut := sortByKey nd,
                   wShortcut := sortByKey (lEnt ++ mEnt ++ nEnt ++ sEnt) })
        | _, _, _, _ =>
          (some .missingCategory, { st with categories := raw.map (fun p => (p.1, sortByKey p.2)),
                                            dShortcut := sortByKey nd })

/-- A Python value passed to `UnicodeSubset.__contains__`: an `int`, a
`str`, a bytes-like object, or anything else. -/
inductive PyValue where
  | pyInt (n : Nat)
  | pyStr (chars : List Char)
  | pyBytes (bs : List Nat)
  | pyOther
deriving DecidableEq, Repr

/-- Python's `ord`: accepts a one-character string or a length-1
bytes-like object and returns its code point, raising `TypeError`
(here `none`) on everything else. -/
def ordPy : PyValue → Option Nat
  | .pyStr [c] => some c.toNat
  | .pyBytes [b] => some b
  | _ => none

/-- `UnicodeSubset.__contains__` for an arbitrary value: non-integers go
through `ord`, a `TypeError` there yields `False`. -/
def containsValue (v : PyValue) (l : List CodePoint) : Bool :=
  match v with
  | .pyInt n => containsCp n l
  | other =>
    match ordPy other with
    | some n => containsCp n l
    | none => false

instance {e a : Type} [DecidableEq e] [DecidableEq a] : DecidableEq (Except e a) := fun x y =>
  match x, y with
  | .ok u, .ok v => decidable_of_iff (u = v) (by simp)
  | .error u, .error v => decidable_of_iff (u = v) (by simp)
  | .ok _, .error _ => isFalse (by simp)
  | .error _, .ok _ => isFalse (by simp)

/-- The literal metacharacters of the class parser (`r'|.^?*+{}()'`). -/
def metaChars : List Char := ['|', '.', '^', '?', '*', '+', '{', '}', '(', ')']

/-- Characters allowed after a backslash as a range end
(`r'-|.^?*+{}()[]'`). -/
def rangeEscChars : List Char := ['-', '|', '.', '^', '?', '*', '+', '{', '}', '(', ')', '[', ']']

/-- Shorthand-class letters rejected as an escaped range end
(`r'sSdDiIcCwWpP'`). -/
def shorthandChars : List Char := ['s', 'S', 'd', 'D', 'i', 'I', 'c', 'C', 'w', 'W', 'p', 'P']

/-- Code points emitted for a completed character range `char-endChar`:
either the half-open pair or, with `expand_ranges`, the scalars from
`char + 1` to `endChar` (the start scalar was emitted, or deferred, when
first seen). -/
def rangeEmit (expand : Bool) (startChar endChar : Char) : List CodePoint :=
  if expand then (List.range' (startChar.toNat + 1) (endChar.toNat - startChar.toNat)).map .int
  else [.rng startChar.toNat (endChar.toNat + 1)]

/-- The scanning loop of `iterparse_character_subset` from index `k ≥ 1`
onwards; `escaped`, `onRange` and `char` are the loop-carried state, the
list argument is the remaining input.  Index tests on the original string
are rephrased on the suffix: `k == length - 1` is `rest = []`,
`k >= length - 2` is `rest.length ≤ 1`, `s[k + 1]` is `rest.head?`.
The `fuel` argument only bounds the recursion depth; every use supplies
`fuel >` the length of the list argument (each step consumes at least one
input character and one unit of fuel, so the invariant is preserved), and
therefore the `fuel = 0` base case is never reached: the empty-input case,
including the source's trailing `if escaped: yield ord('\\')`, is always
handled by the `fuel + 1, []` branch. -/
def parseLoop (expand : Bool) : Nat → Bool → Bool → Char → Nat → List Char →
    Except RegexErr (List CodePoint)
  | 0, _, _, _, _, _ => .ok []
  | _ + 1, escaped, _, _, _, [] => .ok (if escaped then [.int 92] else [])
  | fuel + 1, escaped, onRange, char, k, c :: rest =>
    if c = '-' then
      if escaped ∨ rest = [] then
        (parseLoop expand fuel false onRange '-' (k + 1) rest).map (.int 45 :: ·)
      else if onRange then
        (parseLoop expand fuel escaped false '-' (k + 1) rest).map (.int 45 :: ·)
      else
        match rest with
        | [] => .error (.badRange k)
        | ec :: rest2 =>
          if ec = '\\' then
            match rest2 with
            | [] =>
              if char.toNat > 92 then .error (.badRange (k - 1))
              else (parseLoop expand fuel false true char (k + 2) rest2).map
                (rangeEmit expand char '\\' ++ ·)
            | e2 :: rest3 =>
              if e2 ∈ rangeEscChars then
                if char.toNat > e2.toNat then .error (.badRange k)
                else (parseLoop expand fuel false true char (k + 3) rest3).map
                  (rangeEmit expand char e2 ++ ·)
              else if e2 ∈ shorthandChars then .error (.badRange (k - 1))
              else
                if char.toNat > 92 then .error (.badRange (k - 1))
                else (parseLoop expand fuel false true char (k + 2) rest2).map
                  (rangeEmit expand char '\\' ++ ·)
          else
            if char.toNat > ec.toNat then .error (.badRange (k - 1))
            else (parseLoop expand fuel false true char (k + 2) rest2).map
              (rangeEmit expand char ec ++ ·)
    else if c ∈ metaChars then
      (parseLoop expand fuel false false c (k + 1) rest).map (.int c.toNat :: ·)
    else if c = '[' ∨ c = ']' then
      if ¬escaped then .error (.badChar k)
      else
        (parseLoop expand fuel false false c (k + 1) rest).map
          (fun r => (if rest.length ≤ 1 ∨ rest.head? ≠ some '-' then [.int c.toNat] else []) ++ r)
    else if c = '\\' then
      if escaped then (parseLoop expand fuel false false '\\' (k + 1) rest).map (.int 92 :: ·)
      else parseLoop expand fuel true onRange char (k + 1) rest
    else
      (parseLoop expand fuel false false c (k + 1) rest).map
        (fun r =>
          (if escaped then [CodePoint.int 92] else []) ++
          (if rest.length ≤ 1 ∨ rest.head? ≠ some '-' then [CodePoint.int c.toNat] else []) ++ r)

/-- `iterparse_character_subset`, collecting the generated sequence (or the
first raised `RegexError`).  The first character is handled by the `k == 0`
branch of the source. -/
def iterparseCharacterSubset (expand : Bool) (s : List Char) : Except RegexErr (List CodePoint) :=
  match s with
  | [] => .ok []
  | c :: rest =>
    if c = '\\' then parseLoop expand (rest.length + 1) true false '\\' 1 rest
    else if (c = '[' ∨ c = ']') ∧ rest ≠ [] then .error (.badChar 0)
    else if expand then
      (parseLoop expand (rest.length + 1) false false c 1 rest).map (.int c.toNat :: ·)
    else if rest.length ≤ 1 ∨ rest.head? ≠ some '-' then
      (parseLoop expand (rest.length + 1) false false c 1 rest).map (.int c.toNat :: ·)
    else parseLoop expand (rest.length + 1) false false c 1 rest

end UniSub

namespace UniSub

/-! ### Canonical-form invariants -/

/-- Entry lists in canonical order: consecutive entries do not overlap
(each entry's exclusive end is at most the next entry's start). -/
def Ordered (l : List CodePoint) : Prop := l.Chain' (fun a b => cp1 a ≤ cp0 b)

/-- A canonical subset representation: ordered with well-formed entries. -/
def Canon (l : List CodePoint) : Prop := Ordered l ∧ ∀ c ∈ l, WF c

/-- Executable check of a chain condition on consecutive entries. -/
def decChain (r : CodePoint → CodePoint → Bool) : List CodePoint → Bool
  | [] => true
  | [_] => true
  | a :: b :: t => r a b && decChain r (b :: t)

theorem decChain_eq_true_iff (r : CodePoint → CodePoint → Bool) :
    ∀ l, decChain r l = true ↔ l.Chain' (fun a b => r a b = true)
  | [] => by simp [decChain]
  | [a] => by simp [decChain]
  | a :: b :: t => by
    rw [List.chain'_cons, decChain, Bool.and_eq_true, decChain_eq_true_iff r (b :: t)]

instance : DecidablePred Canon := fun l =>
  decidable_of_iff (decChain (fun a b => decide (cp1 a ≤ cp0 b)) l = true ∧ ∀ c ∈ l, WF c)
    (by
      rw [decChain_eq_true_iff]
      unfold Canon Ordered
      constructor
      · rintro ⟨h1, h2⟩
        exact ⟨h1.imp (fun _ _ hab => of_decide_eq_true hab), h2⟩
      · rintro ⟨h1, h2⟩
        exact ⟨h1.imp (fun _ _ hab => decide_eq_true hab), h2⟩)

/-- Strictly separated entry lists: consecutive entries have a nonempty
gap in between (no overlap and no touching). -/
def StrictOrdered (l : List CodePoint) : Prop := l.Chain' (fun a b => cp1 a < cp0 b)

/-- A fully merged canonical representation: strictly separated
well-formed entries. -/
def StrictCanon (l : List CodePoint) : Prop := StrictOrdered l ∧ ∀ c ∈ l, WF c

instance : DecidablePred StrictOrdered := fun l =>
  decidable_of_iff (decChain (fun a b => decide (cp1 a < cp0 b)) l = true)
    (by
      rw [decChain_eq_true_iff]
      unfold StrictOrdered
      constructor
      · exact fun h1 => h1.imp (fun _ _ hab => of_decide_eq_true hab)
      · exact fun h1 => h1.imp (fun _ _ hab => decide_eq_true hab))

instance : DecidablePred StrictCanon := fun l =>
  inferInstanceAs (Decidable (StrictOrdered l ∧ ∀ c ∈ l, WF c))

/-- Lower bound on the head entry of a list (vacuous for `[]`). -/
def hlb (n : Nat) (l : List CodePoint) : Prop := ∀ y ∈ l.head?, n ≤ cp0 y

/-- Proposition-level membership of a scalar in an entry list. -/
def MemP (n : Nat) (l : List CodePoint) : Prop := ∃ c ∈ l, cp0 c ≤ n ∧ n < cp1 c

theorem memSem_iff {n : Nat} {l : List CodePoint} : memSem n l = true ↔ MemP n l := by
  simp [memSem, MemP, covers, List.any_eq_true]

theorem hlb_nil {n : Nat} : hlb n [] := by simp [hlb]

theorem hlb_cons {n : Nat} {c : CodePoint} {l : List CodePoint} :
    hlb n (c :: l) ↔ n ≤ cp0 c := by simp [hlb]

theorem memP_nil {n : Nat} : ¬ MemP n [] := by simp [MemP]

theorem memP_def {n : Nat} {l : List CodePoint} :
    MemP n l ↔ ∃ c ∈ l, cp0 c ≤ n ∧ n < cp1 c := Iff.rfl

theorem memP_cons {n : Nat} {c : CodePoint} {l : List CodePoint} :
    MemP n (c :: l) ↔ (cp0 c ≤ n ∧ n < cp1 c) ∨ MemP n l := by
  simp [MemP, or_comm]

theorem canon_cons {c : CodePoint} {l : List CodePoint} (h : Canon (c :: l)) :
    Canon l ∧ WF c ∧ hlb (cp1 c) l := by
  obtain ⟨ho, hw⟩ := h
  rw [Ordered, List.chain'_cons'] at ho
  exact ⟨⟨ho.2, fun x hx => hw x (List.mem_cons_of_mem _ hx)⟩,
    hw c (List.mem_cons_self _ _), ho.1⟩

theorem canon_cons_of {c : CodePoint} {l : List CodePoint} (hl : Canon l) (hc : WF c)
    (hb : hlb (cp1 c) l) : Canon (c :: l) := by
  refine ⟨?_, ?_⟩
  · rw [Ordered, List.chain'_cons']
    exact ⟨hb, hl.1⟩
  · intro x hx
    rcases List.mem_cons.1 hx with h | h
    · exact h ▸ hc
    · exact hl.2 x h

/-- All entries after the head of a canonical list start at or after the
head's end. -/
theorem canon_all_lb {c : CodePoint} {l : List CodePoint} (h : Canon (c :: l)) :
    ∀ x ∈ l, cp1 c ≤ cp0 x := by
  induction l generalizing c with
  | nil => intro x hx; cases hx
  | cons d t ih =>
    intro x hx
    obtain ⟨hdl, hwc, hb⟩ := canon_cons h
    rcases List.mem_cons.1 hx with h' | h'
    · exact h' ▸ (hlb_cons.1 hb)
    · have hwd : WF d := (canon_cons hdl).2.1
      have := ih hdl x h'
      have h1 : cp1 c ≤ cp0 d := hlb_cons.1 hb
      have h2 : cp0 d < cp1 d := hwd.1
      omega

theorem memP_lb {b n : Nat} {l : List CodePoint} (h : ∀ x ∈ l, b ≤ cp0 x)
    (hm : MemP n l) : b ≤ n := by
  obtain ⟨c, hc, h1, _⟩ := hm
  exact le_trans (h c hc) h1

/-- On canonical lists the early-exit scan of `__contains__` agrees with
semantic membership. -/
theorem containsCp_eq_memSem {l : List CodePoint} (h : Canon l) (v : Nat) :
    containsCp v l = memSem v l := by
  induction l with
  | nil => rfl
  | cons c t ih =>
    obtain ⟨ht, hwc, _⟩ := canon_cons h
    have hlbt : ∀ x ∈ t, cp1 c ≤ cp0 x := canon_all_lb h
    have hrec : containsCp v t = memSem v t := ih ht
    have hmemt : memSem v t = true ↔ MemP v t := memSem_iff
    have hwf1 : cp0 c < cp1 c := hwc.1
    rw [Bool.eq_iff_iff, memSem_iff, memP_cons]
    cases c with
    | int w =>
      simp only [cp0, cp1] at hwf1 hlbt ⊢
      by_cases h1 : w > v
      · simp only [containsCp, if_pos h1]
        constructor
        · intro hf; exact absurd hf (by simp)
        · rintro (⟨h2, h3⟩ | hm)
          · omega
          · have := memP_lb hlbt hm; omega
      · simp only [containsCp, if_neg h1]
        by_cases h2 : w = v
        · simp only [if_pos h2]
          exact ⟨fun _ => Or.inl (by omega), fun _ => trivial⟩
        · simp only [if_neg h2]
          rw [hrec, hmemt]
          constructor
          · exact fun hm => Or.inr hm
          · rintro (⟨h3, h4⟩ | hm)
            · omega
            · exact hm
    | rng lo hi =>
      simp only [cp0, cp1] at hwf1 hlbt ⊢
      by_cases h1 : lo > v
      · simp only [containsCp, if_pos h1]
        constructor
        · intro hf; exact absurd hf (by simp)
        · rintro (⟨h2, h3⟩ | hm)
          · omega
          · have := memP_lb hlbt hm; omega
      · simp only [containsCp, if_neg h1]
        by_cases h2 : hi ≤ v
        · simp only [if_pos h2]
          rw [hrec, hmemt]
          constructor
          · exact fun hm => Or.inr hm
          · rintro (⟨h3, h4⟩ | hm)
            · omega
            · exact hm
        · simp only [if_neg h2]
          exact ⟨fun _ => Or.inl (by omega), fun _ => trivial⟩


/-- Specification of the `add` walk on canonical lists: the result is
canonical, head starts no earlier than both the added span and the old
head, and membership is the union of the old membership with the added
half-open span `[s, e)`.  The final disjunctive hypothesis states either
that `value` is the validated argument spanning `[s, e)` (the entry
case), or that the call is a continuation after the walk truncated the
previous entry at the next entry's start (the `continue` of the source's
`end_cp > cp1` branch). -/
theorem addLoop_spec (e : Nat) (value : CodePoint) (hemax : e ≤ maxunicode + 1) :
    ∀ (l : List CodePoint) (s : Nat), Canon l → s < e →
      ((value = CodePoint.int s ∧ e = s + 1) ∨ value = CodePoint.rng s e ∨
        (∃ c rest, l = c :: rest ∧ s = cp0 c ∧ cp0 c < e)) →
      Canon (addLoop s e value l) ∧
      (∀ n, n ≤ s → hlb n l → hlb n (addLoop s e value l)) ∧
      (∀ m, MemP m (addLoop s e value l) ↔ (MemP m l ∨ (s ≤ m ∧ m < e))) := by
  intro l
  induction l with
  | nil =>
    intro s hc hse hmode
    have hgood : (value = CodePoint.int s ∧ e = s + 1) ∨ value = CodePoint.rng s e := by
      rcases hmode with h | h | ⟨c', r', heq, _, _⟩
      · exact Or.inl h
      · exact Or.inr h
      · exact absurd heq (by simp)
    have hv : cp0 value = s ∧ cp1 value = e := by
      rcases hgood with ⟨rfl, he⟩ | rfl
      · exact ⟨rfl, by simp only [cp1_int]; omega⟩
      · exact ⟨rfl, rfl⟩
    obtain ⟨hv0, hv1⟩ := hv
    have hres : addLoop s e value [] = [value] := rfl
    rw [hres]
    refine ⟨⟨List.chain'_singleton _, ?_⟩, ?_, ?_⟩
    · intro x hx
      rw [List.mem_singleton] at hx
      subst hx
      exact ⟨by omega, by omega⟩
    · intro n hn _
      rw [hlb_cons]
      omega
    · intro m
      simp only [memP_cons, memP_nil, or_false, false_or]
      omega
  | cons c rest ih =>
    intro s hc hse hmode
    obtain ⟨hrest, hwc, hhd⟩ := canon_cons hc
    have hwc1 : cp0 c < cp1 c := hwc.1
    have hwc2 : cp1 c ≤ maxunicode + 1 := hwc.2
    by_cases h1 : e < cp0 c
    · -- new span lies entirely before this entry: insert the value here
      have hgood : (value = CodePoint.int s ∧ e = s + 1) ∨ value = CodePoint.rng s e := by
        rcases hmode with h | h | ⟨c', r', heq, hs, hlt⟩
        · exact Or.inl h
        · exact Or.inr h
        · injection heq with e1 e2
          subst e1
          omega
      have hv : cp0 value = s ∧ cp1 value = e := by
        rcases hgood with ⟨rfl, he⟩ | rfl
        · exact ⟨rfl, by simp only [cp1_int]; omega⟩
        · exact ⟨rfl, rfl⟩
      obtain ⟨hv0, hv1⟩ := hv
      have hres : addLoop s e value (c :: rest) = value :: c :: rest := by
        rw [addLoop_cons, if_pos h1]
      rw [hres]
      refine ⟨canon_cons_of hc ⟨by omega, by omega⟩ (hlb_cons.2 (by omega)), ?_, ?_⟩
      · intro n hn _
        rw [hlb_cons]
        omega
      · intro m
        simp only [memP_cons]
        by_cases hP : MemP m rest
        · simp [hP]
        · simp only [hP, or_false]
          omega
    · by_cases h2 : s > cp1 c
      · -- entry entirely before the new span: keep it and continue
        have hmode' : (value = CodePoint.int s ∧ e = s + 1) ∨ value = CodePoint.rng s e ∨
            (∃ c' r', rest = c' :: r' ∧ s = cp0 c' ∧ cp0 c' < e) := by
          rcases hmode with h | h | ⟨c', r', heq, hs, hlt⟩
          · exact Or.inl h
          · exact Or.inr (Or.inl h)
          · injection heq with e1 e2
            subst e1
            omega
        obtain ⟨ihC, ihH, ihM⟩ := ih s hrest hse hmode'
        have hres : addLoop s e value (c :: rest) = c :: addLoop s e value rest := by
          rw [addLoop_cons, if_neg h1, if_pos h2]
        rw [hres]
        refine ⟨canon_cons_of ihC hwc (ihH (cp1 c) (by omega) hhd), ?_, ?_⟩
        · intro n hn hh
          rw [hlb_cons] at hh ⊢
          exact hh
        · intro m
          simp only [memP_cons, ihM m]
          by_cases hP : MemP m rest
          · simp [hP]
          · simp only [hP, or_false, false_or]
            try omega
      · by_cases h3 : e > cp1 c
        · cases rest with
          | nil =>
            have hres : addLoop s e value [c] = [CodePoint.rng (min (cp0 c) s) e] := by
              rw [addLoop_cons, if_neg h1, if_neg h2, if_pos h3]
            rw [hres]
            refine ⟨⟨List.chain'_singleton _, ?_⟩, ?_, ?_⟩
            · intro x hx
              rw [List.mem_singleton] at hx
              subst hx
              refine ⟨?_, ?_⟩ <;> simp only [cp0_rng, cp1_rng] <;> omega
            · intro n hn hh
              rw [hlb_cons] at hh ⊢
              simp only [cp0_rng] at hh ⊢
              omega
            · intro m
              simp only [memP_cons, memP_nil, or_false, cp0_rng, cp1_rng]
              omega
          | cons next rest' =>
            have hnext : cp1 c ≤ cp0 next := hlb_cons.1 hhd
            have hwnext : WF next := hrest.2 next (List.mem_cons_self _ _)
            have hwnext1 : cp0 next < cp1 next := hwnext.1
            have hwnext2 : cp1 next ≤ maxunicode + 1 := hwnext.2
            by_cases h4 : e ≤ cp0 next
            · have hres : addLoop s e value (c :: next :: rest') =
                  CodePoint.rng (min (cp0 c) s) e :: next :: rest' := by
                rw [addLoop_cons, if_neg h1, if_neg h2, if_pos h3]
                simp only [if_pos h4]
              rw [hres]
              refine ⟨canon_cons_of hrest ⟨?_, ?_⟩ (hlb_cons.2 ?_), ?_, ?_⟩
              · simp only [cp0_rng, cp1_rng]; omega
              · simp only [cp1_rng]; omega
              · simp only [cp1_rng]; omega
              · intro n hn hh
                rw [hlb_cons] at hh ⊢
                simp only [cp0_rng] at hh ⊢
                omega
              · intro m
                simp only [memP_cons, cp0_rng, cp1_rng]
                by_cases hP : MemP m rest'
                · simp [hP]
                · simp only [hP, or_false]
                  try omega
            · have hmode' : (value = CodePoint.int (cp0 next) ∧ e = cp0 next + 1) ∨
                  value = CodePoint.rng (cp0 next) e ∨
                  (∃ c' r', next :: rest' = c' :: r' ∧ cp0 next = cp0 c' ∧ cp0 c' < e) :=
                Or.inr (Or.inr ⟨next, rest', rfl, rfl, by omega⟩)
              obtain ⟨ihC, ihH, ihM⟩ := ih (cp0 next) hrest (by omega) hmode'
              have hres : addLoop s e value (c :: next :: rest') =
                  CodePoint.rng (min (cp0 c) s) (cp0 next) ::
                    addLoop (cp0 next) e value (next :: rest') := by
                rw [addLoop_cons, if_neg h1, if_neg h2, if_pos h3]
                simp only [if_neg h4]
              rw [hres]
              refine ⟨canon_cons_of ihC ⟨?_, ?_⟩ ?_, ?_, ?_⟩
              · simp only [cp0_rng, cp1_rng]; omega
              · simp only [cp1_rng]; omega
              · have := ihH (cp0 next) (le_refl _) (hlb_cons.2 (le_refl _))
                simpa only [cp1_rng] using this
              · intro n hn hh
                rw [hlb_cons] at hh ⊢
                simp only [cp0_rng] at hh ⊢
                omega
              · intro m
                simp only [memP_cons, ihM, cp0_rng, cp1_rng]
                by_cases hP : MemP m rest'
                · simp [hP]
                · simp only [hP, or_false]
                  try omega
        · by_cases h5 : s < cp0 c
          · have hres : addLoop s e value (c :: rest) = CodePoint.rng s (cp1 c) :: rest := by
              rw [addLoop_cons, if_neg h1, if_neg h2, if_neg h3, if_pos h5]
            rw [hres]
            refine ⟨canon_cons_of hrest ⟨?_, ?_⟩ ?_, ?_, ?_⟩
            · simp only [cp0_rng, cp1_rng]; omega
            · simp only [cp1_rng]; omega
            · simpa only [cp1_rng] using hhd
            · intro n hn hh
              rw [hlb_cons] at hh ⊢
              simp only [cp0_rng] at hh ⊢
              omega
            · intro m
              simp only [memP_cons, cp0_rng, cp1_rng]
              by_cases hP : MemP m rest
              · simp [hP]
              · simp only [hP, or_false]
                try omega
          · have hres : addLoop s e value (c :: rest) = c :: rest := by
              rw [addLoop_cons, if_neg h1, if_neg h2, if_neg h3, if_neg h5]
            rw [hres]
            refine ⟨hc, fun n hn hh => hh, ?_⟩
            intro m
            simp only [memP_cons]
            by_cases hP : MemP m rest
            · simp [hP]
            · simp only [hP, or_false]
              omega

/-- `add` on a canonical list with a well-formed argument: succeeds, stays
canonical, and adds exactly the argument's span. -/
theorem addFull_spec {l : List CodePoint} (hc : Canon l) {v : CodePoint} (hwf : WF v) :
    ∃ r, addFull v l = some r ∧ Canon r ∧
      ∀ m, MemP m r ↔ (MemP m l ∨ (cp0 v ≤ m ∧ m < cp1 v)) := by
  cases v with
  | int w =>
    have hw : w ≤ maxunicode := by
      have := hwf.2
      simp only [cp1_int] at this
      omega
    have hs := addLoop_spec (w + 1) (CodePoint.int w) (by omega) l w hc (by omega)
      (Or.inl ⟨rfl, rfl⟩)
    refine ⟨addLoop w (w + 1) (CodePoint.int w) l, ?_, hs.1, ?_⟩
    · simp only [addFull, if_pos hw]
    · intro m
      rw [hs.2.2 m]
      simp only [cp0_int, cp1_int]
  | rng lo hi =>
    have hwf' : lo < hi ∧ hi ≤ maxunicode + 1 := by
      have h1 := hwf.1
      have h2 := hwf.2
      simp only [cp0_rng, cp1_rng] at h1 h2
      exact ⟨h1, h2⟩
    have hs := addLoop_spec hi (CodePoint.rng lo hi) hwf'.2 l lo hc hwf'.1
      (Or.inr (Or.inl rfl))
    refine ⟨addLoop lo hi (CodePoint.rng lo hi) l, ?_, hs.1, ?_⟩
    · simp only [addFull, if_pos hwf']
    · intro m
      rw [hs.2.2 m]
      simp only [cp0_rng, cp1_rng]

/-- Folding `add` over a list of well-formed entries accumulates exactly
their union. -/
theorem foldAdd_spec :
    ∀ (l acc : List CodePoint), Canon acc → (∀ c ∈ l, WF c) →
      ∃ r, l.foldlM (fun a c => addFull c a) acc = some r ∧ Canon r ∧
        ∀ m, MemP m r ↔ (MemP m acc ∨ ∃ c ∈ l, cp0 c ≤ m ∧ m < cp1 c) := by
  intro l
  induction l with
  | nil =>
    intro acc hc _
    exact ⟨acc, rfl, hc, fun m => by simp⟩
  | cons c t ih =>
    intro acc hc hwf
    obtain ⟨r1, h1, hc1, hm1⟩ := addFull_spec hc (hwf c (List.mem_cons_self _ _))
    obtain ⟨r, h2, hcr, hmr⟩ := ih r1 hc1 (fun x hx => hwf x (List.mem_cons_of_mem _ hx))
    refine ⟨r, ?_, hcr, ?_⟩
    · rw [List.foldlM_cons, h1]
      exact h2
    · intro m
      rw [hmr m]
      simp only [hm1 m, List.mem_cons]
      constructor
      · rintro ((h | h) | ⟨x, hx, hx2⟩)
        · exact Or.inl h
        · exact Or.inr ⟨c, Or.inl rfl, h⟩
        · exact Or.inr ⟨x, Or.inr hx, hx2⟩
      · rintro (h | ⟨x, hx | hx, hx2⟩)
        · exact Or.inl (Or.inl h)
        · exact Or.inl (Or.inr (hx ▸ hx2))
        · exact Or.inr ⟨x, hx, hx2⟩

/-- Building a subset from a sequence of well-formed entries (the
spec-modelled constructor path): succeeds, canonical, and has exactly the
entries' members. -/
theorem fromSeq_spec {l : List CodePoint} (h : ∀ c ∈ l, WF c) :
    ∃ r, fromSeq l = some r ∧ Canon r ∧ ∀ m, MemP m r ↔ MemP m l := by
  have hperm : List.Perm (sortDescByKey l) l := List.perm_insertionSort _ l
  obtain ⟨r, hr, hcr, hmr⟩ := foldAdd_spec (sortDescByKey l) [] ⟨List.chain'_nil, by simp⟩
    (fun c hc => h c (hperm.subset hc))
  refine ⟨r, hr, hcr, fun m => ?_⟩
  rw [hmr m, memP_def]
  have h0 : ¬ MemP m [] := memP_nil
  constructor
  · rintro (h | ⟨x, hx, h2⟩)
    · exact absurd h h0
    · exact ⟨x, hperm.subset hx, h2⟩
  · rintro ⟨x, hx, h2⟩
    exact Or.inr ⟨x, hperm.symm.subset hx, h2⟩

/-- Specification of the complement walk: on a canonical list whose
entries start at or after `last`, it succeeds, yields a canonical list of
entries starting at or after `last`, and contains exactly the
non-members of the input within `[last, maxunicode]`. -/
theorem complementAux_spec :
    ∀ (l : List CodePoint) (last : Nat), Canon l → hlb last l →
      ∃ r, complementAux last l = some r ∧ Canon r ∧ (∀ x ∈ r, last ≤ cp0 x) ∧
        ∀ m, MemP m r ↔ (last ≤ m ∧ m ≤ maxunicode ∧ ¬ MemP m l) := by
  intro l
  induction l with
  | nil =>
    intro last _ _
    by_cases h1 : last < maxunicode
    · refine ⟨[CodePoint.rng last (maxunicode + 1)], by simp [complementAux, h1], ?_, ?_, ?_⟩
      · refine ⟨List.chain'_singleton _, ?_⟩
        intro x hx
        rw [List.mem_singleton] at hx
        subst hx
        exact ⟨by simp only [cp0_rng, cp1_rng]; omega, by simp only [cp1_rng]; omega⟩
      · intro x hx
        rw [List.mem_singleton] at hx
        subst hx
        simp only [cp0_rng]
        omega
      · intro m
        simp only [memP_cons, memP_nil, or_false, cp0_rng, cp1_rng]
        have h0 : ¬ MemP m [] := memP_nil
        constructor
        · intro h
          exact ⟨by omega, by omega, not_false⟩
        · rintro ⟨h2, h3, _⟩
          omega
    · by_cases h2 : last = maxunicode
      · refine ⟨[CodePoint.int maxunicode], by simp [complementAux, h1, h2], ?_, ?_, ?_⟩
        · refine ⟨List.chain'_singleton _, ?_⟩
          intro x hx
          rw [List.mem_singleton] at hx
          subst hx
          exact ⟨by simp only [cp0_int, cp1_int]; omega, by simp only [cp1_int]; omega⟩
        · intro x hx
          rw [List.mem_singleton] at hx
          subst hx
          simp only [cp0_int]
          omega
        · intro m
          simp only [memP_cons, memP_nil, or_false, cp0_int, cp1_int]
          have h0 : ¬ MemP m [] := memP_nil
          constructor
          · intro h
            exact ⟨by omega, by omega, not_false⟩
          · rintro ⟨h3, h4, _⟩
            omega
      · refine ⟨[], by simp [complementAux, h1, h2], ⟨List.chain'_nil, by simp⟩, by simp, ?_⟩
        intro m
        have h0 : ¬ MemP m [] := memP_nil
        constructor
        · intro h
          exact absurd h h0
        · rintro ⟨h3, h4, _⟩
          omega
  | cons c rest ih =>
    intro last hc hlast
    obtain ⟨hrest, hwc, hhd⟩ := canon_cons hc
    have hwc1 : cp0 c < cp1 c := hwc.1
    have hwc2 : cp1 c ≤ maxunicode + 1 := hwc.2
    have hlast' : last ≤ cp0 c := hlb_cons.1 hlast
    have hng : ¬ cp0 c < last := by omega
    obtain ⟨r', hr', hcr', hlbr', hmr'⟩ := ih (cp1 c) hrest hhd
    have hrestlb : ∀ x ∈ rest, cp1 c ≤ cp0 x := canon_all_lb hc
    have hlbr'' : hlb (cp1 c) r' := fun y hy => hlbr' y (List.mem_of_mem_head? hy)
    by_cases g1 : cp0 c - last > 2
    · have hres : complementAux last (c :: rest) =
          some (CodePoint.rng last (cp0 c) :: r') := by
        simp only [complementAux, if_neg hng, hr', Option.map_some', if_pos g1,
          List.cons_append, List.nil_append]
      refine ⟨_, hres, ?_, ?_, ?_⟩
      · refine canon_cons_of hcr'
          ⟨by simp only [cp0_rng, cp1_rng]; omega, by simp only [cp1_rng]; omega⟩ ?_
        intro y hy
        have := hlbr'' y hy
        simp only [cp1_rng]
        omega
      · intro x hx
        rcases List.mem_cons.1 hx with rfl | hx'
        · simp only [cp0_rng]; omega
        · have := hlbr' x hx'; omega
      · intro m
        simp only [memP_cons, cp0_rng, cp1_rng, not_or]
        rw [hmr' m]
        by_cases hP : MemP m rest
        · have hlow : cp1 c ≤ m := memP_lb hrestlb hP
          simp [hP]
          try omega
        · simp [hP]
          try omega
    · by_cases g2 : cp0 c - last = 2
      · have hres : complementAux last (c :: rest) =
            some (CodePoint.int last :: CodePoint.int (last + 1) :: r') := by
          simp only [complementAux, if_neg hng, hr', Option.map_some', if_neg g1, if_pos g2,
            List.cons_append, List.nil_append]
        refine ⟨_, hres, ?_, ?_, ?_⟩
        · refine canon_cons_of (canon_cons_of hcr'
            ⟨by simp only [cp0_int, cp1_int]; omega, by simp only [cp1_int]; omega⟩ ?_)
            ⟨by simp only [cp0_int, cp1_int]; omega, by simp only [cp1_int]; omega⟩ ?_
          · intro y hy
            have := hlbr'' y hy
            simp only [cp1_int]
            omega
          · rw [hlb_cons]
            simp only [cp1_int, cp0_int]
            omega
        · intro x hx
          rcases List.mem_cons.1 hx with rfl | hx'
          · simp only [cp0_int]; omega
          · rcases List.mem_cons.1 hx' with rfl | hx''
            · simp only [cp0_int]; omega
            · have := hlbr' x hx''; omega
        · intro m
          simp only [memP_cons, cp0_int, cp1_int, not_or]
          rw [hmr' m]
          by_cases hP : MemP m rest
          · have hlow : cp1 c ≤ m := memP_lb hrestlb hP
            simp [hP]
            try omega
          · simp [hP]
            try omega
      · by_cases g3 : cp0 c - last = 1
        · have hres : complementAux last (c :: rest) =
              some (CodePoint.int last :: r') := by
            simp only [complementAux, if_neg hng, hr', Option.map_some', if_neg g1, if_neg g2,
              if_pos g3, List.cons_append, List.nil_append]
          refine ⟨_, hres, ?_, ?_, ?_⟩
          · refine canon_cons_of hcr'
              ⟨by simp only [cp0_int, cp1_int]; omega, by simp only [cp1_int]; omega⟩ ?_
            intro y hy
            have := hlbr'' y hy
            simp only [cp1_int]
            omega
          · intro x hx
            rcases List.mem_cons.1 hx with rfl | hx'
            · simp only [cp0_int]; omega
            · have := hlbr' x hx'; omega
          · intro m
            simp only [memP_cons, cp0_int, cp1_int, not_or]
            rw [hmr' m]
            by_cases hP : MemP m rest
            · have hlow : cp1 c ≤ m := memP_lb hrestlb hP
              simp [hP]
              try omega
            · simp [hP]
              try omega
        · have hres : complementAux last (c :: rest) = some r' := by
            simp only [complementAux, if_neg hng, hr', Option.map_some', if_neg g1, if_neg g2,
              if_neg g3, List.nil_append]
          refine ⟨_, hres, hcr', ?_, ?_⟩
          · intro x hx
            have := hlbr' x hx
            omega
          · intro m
            simp only [memP_cons, not_or]
            rw [hmr' m]
            by_cases hP : MemP m rest
            · have hlow : cp1 c ≤ m := memP_lb hrestlb hP
              simp [hP]
              try omega
            · simp [hP]
              try omega

theorem memP_le_max {l : List CodePoint} (h : ∀ c ∈ l, WF c) {m : Nat} (hm : MemP m l) :
    m ≤ maxunicode := by
  obtain ⟨c, hc, h1, h2⟩ := hm
  have := (h c hc).2
  omega

/-- Semantic involution of the double complement: building a subset from
`complement()`, complementing it again and building once more yields a
subset with exactly the original members. -/
theorem doubleComplement_spec {l : List CodePoint} (hc : Canon l) :
    ∃ r, doubleComplement l = some r ∧ Canon r ∧ ∀ m, memSem m r = memSem m l := by
  have hlb0 : hlb 0 l := fun y _ => Nat.zero_le _
  obtain ⟨r1, h1, hc1, _, hm1⟩ := complementAux_spec l 0 hc hlb0
  obtain ⟨b, h2, hcb, hm2⟩ := fromSeq_spec hc1.2
  have hlb0' : hlb 0 b := fun y _ => Nat.zero_le _
  obtain ⟨r2, h3, hc2, _, hm3⟩ := complementAux_spec b 0 hcb hlb0'
  obtain ⟨rr, h4, hcrr, hm4⟩ := fromSeq_spec hc2.2
  refine ⟨rr, ?_, hcrr, ?_⟩
  · simp only [doubleComplement, complementList, bind, h1, h2, h3, h4, Option.some_bind]
  · intro m
    rw [Bool.eq_iff_iff, memSem_iff, memSem_iff]
    rw [hm4 m, hm3 m, hm2 m, hm1 m]
    constructor
    · rintro ⟨_, h5, h6⟩
      by_cases hml : MemP m l
      · exact hml
      · exact absurd ⟨Nat.zero_le _, h5, hml⟩ h6
    · intro hml
      have hmax : m ≤ maxunicode := memP_le_max hc.2 hml
      exact ⟨by omega, hmax, fun hh => absurd hml hh.2.2⟩

/-! ### Reverse-order invariants for `discard` -/

/-- Upper bound on the head entry's end (vacuous for `[]`). -/
def hub (n : Nat) (l : List CodePoint) : Prop := ∀ y ∈ l.head?, cp1 y ≤ n

/-- Canonical form of a reversed entry list: consecutive entries in
descending position, all well formed. -/
def RevCanon (l : List CodePoint) : Prop :=
  l.Chain' (fun a b => cp1 b ≤ cp0 a) ∧ ∀ c ∈ l, WF c

theorem hub_cons {n : Nat} {c : CodePoint} {l : List CodePoint} :
    hub n (c :: l) ↔ cp1 c ≤ n := by simp [hub]

theorem revCanon_cons {c : CodePoint} {l : List CodePoint} (h : RevCanon (c :: l)) :
    RevCanon l ∧ WF c ∧ hub (cp0 c) l := by
  obtain ⟨ho, hw⟩ := h
  rw [List.chain'_cons'] at ho
  exact ⟨⟨ho.2, fun x hx => hw x (List.mem_cons_of_mem _ hx)⟩,
    hw c (List.mem_cons_self _ _), ho.1⟩

theorem revCanon_cons_of {c : CodePoint} {l : List CodePoint} (hl : RevCanon l) (hc : WF c)
    (hb : hub (cp0 c) l) : RevCanon (c :: l) := by
  refine ⟨?_, ?_⟩
  · rw [List.chain'_cons']
    exact ⟨hb, hl.1⟩
  · intro x hx
    rcases List.mem_cons.1 hx with h | h
    · exact h ▸ hc
    · exact hl.2 x h

theorem revCanon_all {c : CodePoint} {l : List CodePoint} (h : RevCanon (c :: l)) :
    ∀ x ∈ l, cp1 x ≤ cp0 c := by
  induction l generalizing c with
  | nil => intro x hx; cases hx
  | cons d t ih =>
    intro x hx
    obtain ⟨hdl, _, hb⟩ := revCanon_cons h
    rcases List.mem_cons.1 hx with h' | h'
    · exact h' ▸ (hub_cons.1 hb)
    · have hwd : WF d := (revCanon_cons hdl).2.1
      have := ih hdl x h'
      have h1 : cp1 d ≤ cp0 c := hub_cons.1 hb
      have h2 : cp0 d < cp1 d := hwd.1
      omega

theorem memP_ub {b : Nat} {l : List CodePoint} (h : ∀ x ∈ l, cp1 x ≤ b) {m : Nat}
    (hm : MemP m l) : m < b := by
  obtain ⟨c, hc, _, h2⟩ := hm
  have := h c hc
  omega

theorem canon_reverse {l : List CodePoint} : Canon l ↔ RevCanon l.reverse := by
  unfold Canon Ordered RevCanon
  rw [List.chain'_reverse]
  constructor
  · rintro ⟨h1, h2⟩
    exact ⟨h1, fun c hc => h2 c (List.mem_reverse.1 hc)⟩
  · rintro ⟨h1, h2⟩
    exact ⟨h1, fun c hc => h2 c (List.mem_reverse.2 hc)⟩

theorem memP_reverse {n : Nat} {l : List CodePoint} : MemP n l.reverse ↔ MemP n l := by
  simp [memP_def]

/-- Specification of the reversed `discard` walk: starting from a
canonical reversed list, it succeeds, stays canonical, keeps the head's
end bound, and removes exactly the span `[s, e)`. -/
theorem discardRevLoop_spec (s e : Nat) (hse : s < e) (hemax : e ≤ maxunicode + 1) :
    ∀ (rl : List CodePoint), RevCanon rl →
      RevCanon (discardRevLoop s e rl) ∧
      (∀ n, hub n rl → hub n (discardRevLoop s e rl)) ∧
      (∀ m, MemP m (discardRevLoop s e rl) ↔ (MemP m rl ∧ ¬(s ≤ m ∧ m < e))) := by
  intro rl
  induction rl with
  | nil =>
    intro _
    have h00 : discardRevLoop s e ([] : List CodePoint) = [] := rfl
    rw [h00]
    refine ⟨⟨List.chain'_nil, by simp⟩, fun n h => h, fun m => ?_⟩
    have h0 : ¬ MemP m [] := memP_nil
    constructor
    · intro h; exact absurd h h0
    · rintro ⟨h, _⟩; exact absurd h h0
  | cons c t ih =>
    intro hrc
    obtain ⟨hrt, hwc, hhd⟩ := revCanon_cons hrc
    have hwc1 : cp0 c < cp1 c := hwc.1
    have hwc2 : cp1 c ≤ maxunicode + 1 := hwc.2
    have halllb : ∀ x ∈ t, cp1 x ≤ cp0 c := revCanon_all hrc
    obtain ⟨ihC, ihH, ihM⟩ := ih hrt
    by_cases h1 : s ≥ cp1 c
    · -- break: the whole span lies at or above this entry's end
      have hres : discardRevLoop s e (c :: t) = c :: t := by
        simp only [discardRevLoop, if_pos h1]
      rw [hres]
      refine ⟨hrc, fun n h => h, fun m => ?_⟩
      simp only [memP_cons]
      by_cases hP : MemP m t
      · have := memP_ub halllb hP
        simp [hP]
        omega
      · simp [hP]
        omega
    · by_cases h2 : e ≥ cp1 c
      · by_cases h3 : s ≤ cp0 c
        · -- delete the entry
          have hres : discardRevLoop s e (c :: t) = discardRevLoop s e t := by
            simp only [discardRevLoop, if_neg h1, if_pos h2, if_pos h3]
          rw [hres]
          refine ⟨ihC, ?_, fun m => ?_⟩
          · intro n hn
            refine ihH n ?_
            intro y hy
            have := hhd y hy
            have hwy : WF y := hrt.2 y (List.mem_of_mem_head? hy)
            have := hwy.1
            rw [hub_cons] at hn
            omega
          · rw [ihM m, memP_cons]
            by_cases hP : MemP m t
            · simp [hP]
            · simp [hP]
              omega
        · -- clip the back: keep [cp0 c, s)
          push_neg at h3
          have hres : discardRevLoop s e (c :: t) =
              (if s - cp0 c > 1 then CodePoint.rng (cp0 c) s else CodePoint.int (cp0 c)) ::
                discardRevLoop s e t := by
            simp only [discardRevLoop, if_neg h1, if_pos h2, if_neg (by omega : ¬ s ≤ cp0 c)]
            by_cases h4 : s - cp0 c > 1 <;> simp [h4]
          rw [hres]
          have hfr0 : cp0 (if s - cp0 c > 1 then CodePoint.rng (cp0 c) s
              else CodePoint.int (cp0 c)) = cp0 c := by
            by_cases h4 : s - cp0 c > 1 <;> simp [h4]
          have hfr1 : cp1 (if s - cp0 c > 1 then CodePoint.rng (cp0 c) s
              else CodePoint.int (cp0 c)) = s := by
            by_cases h4 : s - cp0 c > 1 <;> simp [h4] <;> omega
          refine ⟨revCanon_cons_of ihC ⟨by omega, by omega⟩ ?_, ?_, fun m => ?_⟩
          · rw [hub] at hhd ⊢
            rw [hfr0]
            intro y hy
            exact (ihH (cp0 c) hhd) y hy
          · intro n hn
            rw [hub_cons] at hn ⊢
            omega
          · rw [memP_cons, memP_cons, ihM m, hfr0, hfr1]
            by_cases hP : MemP m t
            · have := memP_ub halllb hP
              simp [hP]
              omega
            · simp [hP]
              omega
      · push_neg at h2
        by_cases h5 : e > cp0 c
        · by_cases h3 : s ≤ cp0 c
          · -- clip the front: keep [e, cp1 c)
            have hres : discardRevLoop s e (c :: t) =
                (if cp1 c - e > 1 then CodePoint.rng e (cp1 c)
                  else CodePoint.int (cp1 c - 1)) :: discardRevLoop s e t := by
              simp only [discardRevLoop, if_neg h1, if_neg (by omega : ¬ e ≥ cp1 c),
                if_pos (by omega : e > cp0 c), if_pos h3]
            rw [hres]
            have hbk0 : cp0 (if cp1 c - e > 1 then CodePoint.rng e (cp1 c)
                else CodePoint.int (cp1 c - 1)) = e := by
              by_cases h4 : cp1 c - e > 1 <;> simp [h4] <;> omega
            have hbk1 : cp1 (if cp1 c - e > 1 then CodePoint.rng e (cp1 c)
                else CodePoint.int (cp1 c - 1)) = cp1 c := by
              by_cases h4 : cp1 c - e > 1 <;> simp [h4] <;> omega
            refine ⟨revCanon_cons_of ihC ⟨by omega, by omega⟩ ?_, ?_, fun m => ?_⟩
            · rw [hub] at hhd ⊢
              rw [hbk0]
              intro y hy
              refine le_trans ((ihH (cp0 c) hhd) y hy) (by omega)
            · intro n hn
              rw [hub_cons] at hn ⊢
              omega
            · rw [memP_cons, memP_cons, ihM m, hbk0, hbk1]
              by_cases hP : MemP m t
              · have := memP_ub halllb hP
                simp [hP]
                omega
              · simp [hP]
                omega
          · -- split: keep [cp0 c, s) and [e, cp1 c)
            push_neg at h3
            have hres : discardRevLoop s e (c :: t) =
                (if cp1 c - e > 1 then CodePoint.rng e (cp1 c)
                  else CodePoint.int (cp1 c - 1)) ::
                (if s - cp0 c > 1 then CodePoint.rng (cp0 c) s
                  else CodePoint.int (cp0 c)) :: discardRevLoop s e t := by
              simp only [discardRevLoop, if_neg h1, if_neg (by omega : ¬ e ≥ cp1 c),
                if_pos (by omega : e > cp0 c), if_neg (by omega : ¬ s ≤ cp0 c)]
            rw [hres]
            have hfr0 : cp0 (if s - cp0 c > 1 then CodePoint.rng (cp0 c) s
                else CodePoint.int (cp0 c)) = cp0 c := by
              by_cases h4 : s - cp0 c > 1 <;> simp [h4]
            have hfr1 : cp1 (if s - cp0 c > 1 then CodePoint.rng (cp0 c) s
                else CodePoint.int (cp0 c)) = s := by
              by_cases h4 : s - cp0 c > 1 <;> simp [h4] <;> omega
            have hbk0 : cp0 (if cp1 c - e > 1 then CodePoint.rng e (cp1 c)
                else CodePoint.int (cp1 c - 1)) = e := by
              by_cases h4 : cp1 c - e > 1 <;> simp [h4] <;> omega
            have hbk1 : cp1 (if cp1 c - e > 1 then CodePoint.rng e (cp1 c)
                else CodePoint.int (cp1 c - 1)) = cp1 c := by
              by_cases h4 : cp1 c - e > 1 <;> simp [h4] <;> omega
            have hinner : RevCanon ((if s - cp0 c > 1 then CodePoint.rng (cp0 c) s
                else CodePoint.int (cp0 c)) :: discardRevLoop s e t) := by
              refine revCanon_cons_of ihC ⟨by omega, by omega⟩ ?_
              rw [hub] at hhd ⊢
              rw [hfr0]
              intro y hy
              exact (ihH (cp0 c) hhd) y hy
            refine ⟨revCanon_cons_of hinner ⟨by omega, by omega⟩ ?_, ?_, fun m => ?_⟩
            · rw [hub_cons, hbk0, hfr1]
              omega
            · intro n hn
              rw [hub_cons] at hn ⊢
              omega
            · rw [memP_cons, memP_cons, memP_cons, ihM m, hbk0, hbk1, hfr0, hfr1]
              by_cases hP : MemP m t
              · have := memP_ub halllb hP
                simp [hP]
                omega
              · simp [hP]
                omega
        · -- the span lies entirely below this entry: keep it, continue
          push_neg at h5
          have hres : discardRevLoop s e (c :: t) = c :: discardRevLoop s e t := by
            simp only [discardRevLoop, if_neg h1, if_neg (by omega : ¬ e ≥ cp1 c),
              if_neg (by omega : ¬ e > cp0 c)]
          rw [hres]
          refine ⟨revCanon_cons_of ihC hwc ?_, ?_, fun m => ?_⟩
          · rw [hub] at hhd ⊢
            intro y hy
            exact (ihH (cp0 c) hhd) y hy
          · intro n hn
            rw [hub_cons] at hn ⊢
            omega
          · rw [memP_cons, memP_cons, ihM m]
            by_cases hP : MemP m t
            · simp [hP]
              omega
            · simp [hP]
              omega

/-- `discard` on a canonical list with a well-formed argument: succeeds,
stays canonical, and removes exactly the argument's span. -/
theorem discardFull_spec {l : List CodePoint} (hc : Canon l) {v : CodePoint} (hwf : WF v) :
    ∃ r, discardFull v l = some r ∧ Canon r ∧
      ∀ m, MemP m r ↔ (MemP m l ∧ ¬(cp0 v ≤ m ∧ m < cp1 v)) := by
  have hrc : RevCanon l.reverse := canon_reverse.1 hc
  cases v with
  | int w =>
    have hw : w ≤ maxunicode := by
      have := hwf.2
      simp only [cp1_int] at this
      omega
    obtain ⟨hC, _, hM⟩ := discardRevLoop_spec w (w + 1) (by omega) (by omega) l.reverse hrc
    refine ⟨(discardRevLoop w (w + 1) l.reverse).reverse, ?_, ?_, ?_⟩
    · simp only [discardFull, if_pos hw]
    · rw [canon_reverse, List.reverse_reverse]
      exact hC
    · intro m
      rw [memP_reverse, hM m, memP_reverse]
      simp only [cp0_int, cp1_int]
  | rng lo hi =>
    have hwf' : lo < hi ∧ hi ≤ maxunicode + 1 := by
      have h1 := hwf.1
      have h2 := hwf.2
      simp only [cp0_rng, cp1_rng] at h1 h2
      exact ⟨h1, h2⟩
    obtain ⟨hC, _, hM⟩ := discardRevLoop_spec lo hi hwf'.1 hwf'.2 l.reverse hrc
    refine ⟨(discardRevLoop lo hi l.reverse).reverse, ?_, ?_, ?_⟩
    · simp only [discardFull, if_pos hwf']
    · rw [canon_reverse, List.reverse_reverse]
      exact hC
    · intro m
      rw [memP_reverse, hM m, memP_reverse]
      simp only [cp0_rng, cp1_rng]

/-! ### Strictly separated subsets: literal identities of the algebra -/

theorem strictCanon_canon {l : List CodePoint} (h : StrictCanon l) : Canon l :=
  ⟨List.Chain'.imp (fun _ _ hab => Nat.le_of_lt hab) h.1, h.2⟩

theorem strictCanon_cons {c : CodePoint} {l : List CodePoint} (h : StrictCanon (c :: l)) :
    StrictCanon l ∧ WF c ∧ (∀ y ∈ l.head?, cp1 c < cp0 y) := by
  obtain ⟨ho, hw⟩ := h
  rw [StrictOrdered, List.chain'_cons'] at ho
  exact ⟨⟨ho.2, fun x hx => hw x (List.mem_cons_of_mem _ hx)⟩,
    hw c (List.mem_cons_self _ _), ho.1⟩

theorem strictCanon_all {c : CodePoint} {l : List CodePoint} (h : StrictCanon (c :: l)) :
    ∀ x ∈ l, cp1 c < cp0 x := by
  induction l generalizing c with
  | nil => intro x hx; cases hx
  | cons d t ih =>
    intro x hx
    obtain ⟨hdl, _, hb⟩ := strictCanon_cons h
    rcases List.mem_cons.1 hx with h' | h'
    · exact h' ▸ (hb d (by simp))
    · have hwd : WF d := (strictCanon_cons hdl).2.1
      have := ih hdl x h'
      have h1 : cp1 c < cp0 d := hb d (by simp)
      have h2 : cp0 d < cp1 d := hwd.1
      omega

/-- `add` validated through the entry's own bounds. -/
theorem addFull_eq_addLoop {v : CodePoint} (hwf : WF v) (l : List CodePoint) :
    addFull v l = some (addLoop (cp0 v) (cp1 v) v l) := by
  cases v with
  | int w =>
    have hw : w ≤ maxunicode := by
      have := hwf.2
      simp only [cp1_int] at this
      omega
    simp only [addFull, if_pos hw, cp0_int, cp1_int]
  | rng lo hi =>
    have hwf' : lo < hi ∧ hi ≤ maxunicode + 1 := by
      have h1 := hwf.1
      have h2 := hwf.2
      simp only [cp0_rng, cp1_rng] at h1 h2
      exact ⟨h1, h2⟩
    simp only [addFull, if_pos hwf', cp0_rng, cp1_rng]

/-- Adding one of a strictly separated list's own entries leaves the list
literally unchanged. -/
theorem addLoop_self {l : List CodePoint} (hs : StrictCanon l) {c : CodePoint} (hcl : c ∈ l) :
    addLoop (cp0 c) (cp1 c) c l = l := by
  induction l with
  | nil => cases hcl
  | cons h t ih =>
    obtain ⟨hst, hwh, _⟩ := strictCanon_cons hs
    have hwh1 : cp0 h < cp1 h := hwh.1
    rcases List.mem_cons.1 hcl with rfl | hct
    · have hwc1 : cp0 c < cp1 c := hwh1
      rw [addLoop_cons, if_neg (by omega), if_neg (by omega), if_neg (by omega),
        if_neg (by omega)]
    · have hsep : cp1 h < cp0 c := strictCanon_all hs c hct
      have hwc : WF c := hst.2 c hct
      have hwc1 : cp0 c < cp1 c := hwc.1
      rw [addLoop_cons, if_neg (by omega), if_pos (by omega : cp0 c > cp1 h), ih hst hct]

theorem foldAdd_const {l : List CodePoint} (hs : StrictCanon l) :
    ∀ b : List CodePoint, (∀ c ∈ b, c ∈ l) →
      b.foldlM (fun acc c => addFull c acc) l = some l := by
  intro b
  induction b with
  | nil => intro _; rfl
  | cons c b' ih =>
    intro hmem
    have hcl : c ∈ l := hmem c (List.mem_cons_self _ _)
    have hwc : WF c := hs.2 c hcl
    rw [List.foldlM_cons, addFull_eq_addLoop hwc, addLoop_self hs hcl]
    exact ih (fun x hx => hmem x (List.mem_cons_of_mem _ hx))

/-- `A | A` is literally `A` on strictly separated canonical subsets. -/
theorem iorList_self {l : List CodePoint} (hs : StrictCanon l) : iorList l l = some l :=
  foldAdd_const hs l.reverse (fun c hc => List.mem_reverse.1 hc)

/-- The reversed `discard` walk ignores a list whose first (i.e. last in
subset order) entry ends at or before the discarded start. -/
theorem discardRevLoop_skip {s e : Nat} {rl : List CodePoint}
    (h : ∀ y ∈ rl.head?, cp1 y ≤ s) : discardRevLoop s e rl = rl := by
  cases rl with
  | nil => rfl
  | cons c t =>
    have : cp1 c ≤ s := h c (by simp)
    simp only [discardRevLoop, if_pos (by omega : s ≥ cp1 c)]

/-- Discarding the last entry of a strictly separated subset removes
exactly that entry. -/
theorem discardFull_last {l : List CodePoint} {c : CodePoint}
    (hs : StrictCanon (l ++ [c])) : discardFull c (l ++ [c]) = some l := by
  have hwc : WF c := hs.2 c (by simp)
  have hwc1 : cp0 c < cp1 c := hwc.1
  have hlast : ∀ y ∈ l.reverse.head?, cp1 y ≤ cp0 c := by
    intro y hy
    rw [List.head?_reverse] at hy
    have hchain := List.chain'_append.1 hs.1
    have := hchain.2.2 y hy c (by simp)
    omega
  have hkey : discardRevLoop (cp0 c) (cp1 c) ((l ++ [c]).reverse) = l.reverse := by
    rw [List.reverse_append]
    simp only [List.reverse_singleton, List.singleton_append]
    rw [discardRevLoop]
    rw [if_neg (by omega : ¬ cp0 c ≥ cp1 c), if_pos (le_refl _), if_pos (le_refl _)]
    exact discardRevLoop_skip hlast
  cases c with
  | int w =>
    have hw : w ≤ maxunicode := by
      have := hwc.2
      simp only [cp1_int] at this
      omega
    simp only [discardFull, if_pos hw]
    simp only [cp0_int, cp1_int] at hkey
    rw [hkey, List.reverse_reverse]
  | rng lo hi =>
    have hwf' : lo < hi ∧ hi ≤ maxunicode + 1 := by
      have h1 := hwc.1
      have h2 := hwc.2
      simp only [cp0_rng, cp1_rng] at h1 h2
      exact ⟨h1, h2⟩
    simp only [discardFull, if_pos hwf']
    simp only [cp0_rng, cp1_rng] at hkey
    rw [hkey, List.reverse_reverse]

theorem strictCanon_append_left {l : List CodePoint} {c : CodePoint}
    (hs : StrictCanon (l ++ [c])) : StrictCanon l := by
  obtain ⟨ho, hw⟩ := hs
  exact ⟨(List.chain'_append.1 ho).1, fun x hx => hw x (by simp [hx])⟩

/-- `A - A` literally empties a strictly separated subset. -/
theorem isubList_self {l : List CodePoint} (hs : StrictCanon l) : isubList l l = some [] := by
  unfold isubList
  induction l using List.reverseRecOn with
  | nil => rfl
  | append_singleton init c ih =>
    rw [List.reverse_append, List.reverse_singleton, List.singleton_append, List.foldlM_cons,
      discardFull_last hs]
    exact ih (strictCanon_append_left hs)

/-- `A & A` is literally `A` on strictly separated canonical subsets. -/
theorem iandList_self {l : List CodePoint} (hs : StrictCanon l) : iandList l l = some l := by
  unfold iandList
  rw [isubList_self hs]
  rfl

theorem containsCp_head_cover {c : CodePoint} {rest : List CodePoint} {v : Nat}
    (h0 : cp0 c ≤ v) (h1 : v < cp1 c) : containsCp v (c :: rest) = true := by
  cases c with
  | int w =>
    simp only [cp0_int, cp1_int] at h0 h1
    simp only [containsCp]
    rw [if_neg (by omega), if_pos (by omega)]
  | rng lo hi =>
    simp only [cp0_rng, cp1_rng] at h0 h1
    simp only [containsCp]
    rw [if_neg (by omega), if_neg (by omega)]

/-- The reversed `discard` walk passes over entries entirely above the
discarded span. -/
theorem discardRevLoop_prefix (s e : Nat) :
    ∀ (p q : List CodePoint), (∀ x ∈ p, s < cp1 x ∧ e ≤ cp0 x ∧ cp0 x < cp1 x) →
      discardRevLoop s e (p ++ q) = p ++ discardRevLoop s e q := by
  intro p
  induction p with
  | nil => intro q _; rfl
  | cons x p' ih =>
    intro q hp
    obtain ⟨hx1, hx2, hx3⟩ := hp x (List.mem_cons_self _ _)
    rw [List.cons_append]
    rw [discardRevLoop.eq_def]
    simp only
    rw [if_neg (by omega : ¬ s ≥ cp1 x), if_neg (by omega : ¬ e ≥ cp1 x),
      if_neg (by omega : ¬ e > cp0 x)]
    rw [ih q (fun y hy => hp y (List.mem_cons_of_mem _ hy))]
    simp

/-- Running the `__ixor__` scalar loop over all points of the first entry
of a subset deletes exactly that entry. -/
theorem ixor_clear_entry :
    ∀ (n lo hi : Nat), hi - lo = n → lo < hi → hi ≤ maxunicode + 1 →
      ∀ (c : CodePoint), cp0 c = lo → cp1 c = hi →
      ∀ rest : List CodePoint, (∀ x ∈ rest, hi ≤ cp0 x ∧ WF x) →
      (List.range' lo n).foldlM ixorStep (c :: rest) = some rest := by
  intro n
  induction n with
  | zero => intro lo hi hn hlt _ _ _ _ _ _; omega
  | succ k ih =>
    intro lo hi hn hlt hmax c hc0 hc1 rest hsep
    rw [List.range'_succ, List.foldlM_cons]
    have hcont : containsCp lo (c :: rest) = true :=
      containsCp_head_cover (by omega) (by omega)
    have hlomax : lo ≤ maxunicode := by omega
    have hpre : ∀ x ∈ rest.reverse, lo < cp1 x ∧ lo + 1 ≤ cp0 x ∧ cp0 x < cp1 x := by
      intro x hx
      obtain ⟨h1, h2⟩ := hsep x (List.mem_reverse.1 hx)
      have := h2.1
      omega
    have hrev : (c :: rest).reverse = rest.reverse ++ [c] := by
      simp
    by_cases hk : hi = lo + 1
    · have hk0 : k = 0 := by omega
      subst hk0
      have hstep : ixorStep (c :: rest) lo = some rest := by
        rw [ixorStep, if_pos hcont]
        simp only [discardFull, if_pos hlomax]
        rw [hrev, discardRevLoop_prefix lo (lo + 1) rest.reverse [c] hpre]
        rw [discardRevLoop.eq_def]
        simp only
        rw [if_neg (by omega : ¬ lo ≥ cp1 c), if_pos (by omega : lo + 1 ≥ cp1 c),
          if_pos (by omega : lo ≤ cp0 c)]
        have : discardRevLoop lo (lo + 1) ([] : List CodePoint) = [] := rfl
        rw [this, List.append_nil, List.reverse_reverse]
      rw [hstep]
      rfl
    · have hrep0 : cp0 (if cp1 c - (lo + 1) > 1 then CodePoint.rng (lo + 1) (cp1 c)
          else CodePoint.int (cp1 c - 1)) = lo + 1 := by
        by_cases h4 : cp1 c - (lo + 1) > 1 <;> simp [h4] <;> omega
      have hrep1 : cp1 (if cp1 c - (lo + 1) > 1 then CodePoint.rng (lo + 1) (cp1 c)
          else CodePoint.int (cp1 c - 1)) = hi := by
        by_cases h4 : cp1 c - (lo + 1) > 1 <;> simp [h4] <;> omega
      have hstep : ixorStep (c :: rest) lo = some
          ((if cp1 c - (lo + 1) > 1 then CodePoint.rng (lo + 1) (cp1 c)
            else CodePoint.int (cp1 c - 1)) :: rest) := by
        rw [ixorStep, if_pos hcont]
        simp only [discardFull, if_pos hlomax]
        rw [hrev, discardRevLoop_prefix lo (lo + 1) rest.reverse [c] hpre]
        rw [discardRevLoop.eq_def]
        simp only
        rw [if_neg (by omega : ¬ lo ≥ cp1 c), if_neg (by omega : ¬ lo + 1 ≥ cp1 c),
          if_pos (by omega : lo + 1 > cp0 c), if_pos (by omega : lo ≤ cp0 c)]
        have : discardRevLoop lo (lo + 1) ([] : List CodePoint) = [] := rfl
        rw [this]
        simp
      rw [hstep]
      exact ih (lo + 1) hi (by omega) (by omega) hmax _ hrep0 hrep1 rest hsep

theorem expandCp_eq (c : CodePoint) : expandCp c = List.range' (cp0 c) (cp1 c - cp0 c) := by
  cases c with
  | int v => simp [expandCp]
  | rng lo hi => rfl

/-- `A ^ A` literally empties a strictly separated subset. -/
theorem ixorList_self {l : List CodePoint} (hs : StrictCanon l) : ixorList l l = some [] := by
  unfold ixorList
  induction l with
  | nil => rfl
  | cons c rest ih =>
    obtain ⟨hst, hwc, _⟩ := strictCanon_cons hs
    have hwc1 : cp0 c < cp1 c := hwc.1
    have hwc2 : cp1 c ≤ maxunicode + 1 := hwc.2
    have hsc : scalarsOf (c :: rest) = expandCp c ++ scalarsOf rest := by
      simp [scalarsOf]
    rw [hsc, List.foldlM_append, expandCp_eq c]
    have hclr := ixor_clear_entry (cp1 c - cp0 c) (cp0 c) (cp1 c) rfl hwc1 hwc2 c rfl rfl rest
      (fun x hx => ⟨Nat.le_of_lt (strictCanon_all hs x hx), hst.2 x hx⟩)
    rw [hclr]
    exact ih hst

/-! ### Sorting the concatenation versus the union (word shortcut) -/

/-- Two entries are separated: one ends strictly before the other starts
(no overlap and no touching, in either order). -/
def sep (a b : CodePoint) : Prop := cp1 a < cp0 b ∨ cp1 b < cp0 a

theorem sep_symm : ∀ {a b : CodePoint}, sep a b → sep b a := fun h => h.symm

/-- Positional separation: the left entry ends strictly before the right
one starts. -/
def SepLt (a b : CodePoint) : Prop := cp1 a < cp0 b

instance : IsTotal CodePoint (fun a b => cp0 a ≤ cp0 b) := ⟨fun a b => Nat.le_total _ _⟩

instance : IsTrans CodePoint (fun a b => cp0 a ≤ cp0 b) := ⟨fun _ _ _ h1 h2 => le_trans h1 h2⟩

/-- Plain ordered insertion of an entry separated from every list entry. -/
def insSep (c : CodePoint) : List CodePoint → List CodePoint
  | [] => [c]
  | h :: t => if cp1 c < cp0 h then c :: h :: t else h :: insSep c t

/-- On entries separated from the whole list, the `add` walk degenerates
to ordered insertion. -/
theorem addLoop_insSep :
    ∀ (l : List CodePoint) (c : CodePoint), WF c → (∀ x ∈ l, WF x ∧ sep c x) →
      addLoop (cp0 c) (cp1 c) c l = insSep c l := by
  intro l
  induction l with
  | nil => intro c _ _; rfl
  | cons h t ih =>
    intro c hwc hl
    obtain ⟨hwh, hsep⟩ := hl h (List.mem_cons_self _ _)
    have hwc1 : cp0 c < cp1 c := hwc.1
    have hwh1 : cp0 h < cp1 h := hwh.1
    rcases hsep with hlt | hgt
    · rw [addLoop_cons, if_pos (by omega : cp1 c < cp0 h)]
      rw [insSep, if_pos hlt]
    · rw [addLoop_cons, if_neg (by omega : ¬ cp1 c < cp0 h),
        if_pos (by omega : cp0 c > cp1 h),
        ih c hwc (fun x hx => hl x (List.mem_cons_of_mem _ hx))]
      rw [insSep, if_neg (by omega : ¬ cp1 c < cp0 h)]

theorem insSep_perm (c : CodePoint) : ∀ l : List CodePoint, List.Perm (insSep c l) (c :: l) := by
  intro l
  induction l with
  | nil => exact List.Perm.refl _
  | cons h t ih =>
    rw [insSep]
    by_cases hlt : cp1 c < cp0 h
    · rw [if_pos hlt]
    · rw [if_neg hlt]
      exact (ih.cons h).trans (List.Perm.swap c h t)

theorem mem_insSep {x c : CodePoint} {l : List CodePoint} :
    x ∈ insSep c l ↔ x = c ∨ x ∈ l := by
  rw [(insSep_perm c l).mem_iff, List.mem_cons]

theorem insSep_pairwise {l : List CodePoint} {c : CodePoint}
    (hwl : ∀ x ∈ l, WF x) (hwc : WF c) (hsep : ∀ x ∈ l, sep c x)
    (hp : List.Pairwise SepLt l) : List.Pairwise SepLt (insSep c l) := by
  induction l with
  | nil => simp [insSep, List.pairwise_singleton]
  | cons h t ih =>
    have hwh : WF h := hwl h (List.mem_cons_self _ _)
    have hch : sep c h := hsep h (List.mem_cons_self _ _)
    rw [List.pairwise_cons] at hp
    rw [insSep]
    by_cases hlt : cp1 c < cp0 h
    · rw [if_pos hlt]
      rw [List.pairwise_cons]
      refine ⟨?_, List.pairwise_cons.2 hp⟩
      intro x hx
      rcases List.mem_cons.1 hx with rfl | hx'
      · exact hlt
      · have h1 := hp.1 x hx'
        have h2 := hwh.1
        unfold SepLt at h1 ⊢
        omega
    · rw [if_neg hlt]
      rw [List.pairwise_cons]
      refine ⟨?_, ih (fun x hx => hwl x (List.mem_cons_of_mem _ hx))
        (fun x hx => hsep x (List.mem_cons_of_mem _ hx)) hp.2⟩
      intro x hx
      rcases mem_insSep.1 hx with rfl | hx'
      · rcases hch with h' | h'
        · exact absurd h' hlt
        · exact h'
      · exact hp.1 x hx'

/-- Two strictly separated orderings of the same entries are equal. -/
theorem pairwise_sepLt_unique :
    ∀ (l₁ l₂ : List CodePoint), List.Perm l₁ l₂ → (∀ x ∈ l₁, WF x) →
      List.Pairwise SepLt l₁ → List.Pairwise SepLt l₂ → l₁ = l₂ := by
  intro l₁
  induction l₁ with
  | nil =>
    intro l₂ hp _ _ _
    exact (List.Perm.eq_nil hp.symm).symm
  | cons h t ih =>
    intro l₂ hp hwf hp1 hp2
    cases l₂ with
    | nil => exact absurd (List.Perm.eq_nil hp) (by simp)
    | cons h₂ t₂ =>
      have hh : h = h₂ := by
        have hmem : h ∈ h₂ :: t₂ := hp.subset (List.mem_cons_self _ _)
        rcases List.mem_cons.1 hmem with h' | h'
        · exact h'
        · have hmem2 : h₂ ∈ h :: t := hp.symm.subset (List.mem_cons_self _ _)
          rcases List.mem_cons.1 hmem2 with h'' | h''
          · exact h''.symm
          · have ha := (List.pairwise_cons.1 hp1).1 h₂ h''
            have hb := (List.pairwise_cons.1 hp2).1 h h'
            have hwh : WF h := hwf h (List.mem_cons_self _ _)
            have hwh2 : WF h₂ := hwf h₂ (List.mem_cons_of_mem _ h'')
            have := hwh.1
            have := hwh2.1
            unfold SepLt at ha hb
            omega
      subst hh
      have ht := ih t₂ (hp.cons_inv) (fun x hx => hwf x (List.mem_cons_of_mem _ hx))
        (List.pairwise_cons.1 hp1).2 (List.pairwise_cons.1 hp2).2
      rw [ht]

/-- Folding `add` over pairwise-separated entries acts as repeated
ordered insertion: the result is a strictly separated ordering of all the
entries. -/
theorem foldAdd_insSep :
    ∀ (bs acc : List CodePoint), (∀ x ∈ acc, WF x) → List.Pairwise SepLt acc →
      (∀ y ∈ bs, WF y ∧ ∀ x ∈ acc, sep y x) → List.Pairwise sep bs →
      ∃ u, bs.foldlM (fun a c => addFull c a) acc = some u ∧
        List.Perm u (acc ++ bs) ∧ List.Pairwise SepLt u ∧ (∀ x ∈ u, WF x) := by
  intro bs
  induction bs with
  | nil =>
    intro acc hw hp _ _
    exact ⟨acc, rfl, by simp, hp, hw⟩
  | cons y bs' ih =>
    intro acc hw hp hys hpb
    obtain ⟨hwy, hysep⟩ := hys y (List.mem_cons_self _ _)
    have hadd : addFull y acc = some (insSep y acc) := by
      rw [addFull_eq_addLoop hwy, addLoop_insSep acc y hwy (fun x hx => ⟨hw x hx, hysep x hx⟩)]
    have hw' : ∀ x ∈ insSep y acc, WF x := by
      intro x hx
      rcases mem_insSep.1 hx with rfl | hx'
      · exact hwy
      · exact hw x hx'
    have hp' : List.Pairwise SepLt (insSep y acc) := insSep_pairwise hw hwy hysep hp
    have hys' : ∀ z ∈ bs', WF z ∧ ∀ x ∈ insSep y acc, sep z x := by
      intro z hz
      refine ⟨(hys z (List.mem_cons_of_mem _ hz)).1, ?_⟩
      intro x hx
      rcases mem_insSep.1 hx with rfl | hx'
      · exact sep_symm ((List.pairwise_cons.1 hpb).1 z hz)
      · exact (hys z (List.mem_cons_of_mem _ hz)).2 x hx'
    obtain ⟨u, hu, hup, hupw, huw⟩ := ih (insSep y acc) hw' hp' hys'
      (List.pairwise_cons.1 hpb).2
    refine ⟨u, ?_, ?_, hupw, huw⟩
    · rw [List.foldlM_cons, hadd]
      exact hu
    · exact hup.trans (((insSep_perm y acc).append_right bs').trans List.perm_middle.symm)

theorem sortByKey_pairwise_sepLt {l : List CodePoint} (hwf : ∀ x ∈ l, WF x)
    (hsep : List.Pairwise sep l) : List.Pairwise SepLt (sortByKey l) := by
  have hsorted : List.Sorted (fun a b => cp0 a ≤ cp0 b) (sortByKey l) :=
    List.sorted_insertionSort _ l
  have hperm : List.Perm (sortByKey l) l := List.perm_insertionSort _ l
  have hsymm : Symmetric sep := fun _ _ h => sep_symm h
  have hsep' : List.Pairwise sep (sortByKey l) := (List.Perm.pairwise_iff (fun hx => sep_symm hx) hperm).2 hsep
  refine List.Pairwise.imp_of_mem ?_ (hsorted.and hsep')
  intro a b ha hb hab
  obtain ⟨hle, hs⟩ := hab
  have hwa : WF a := hwf a (hperm.subset ha)
  have hwb : WF b := hwf b (hperm.subset hb)
  have h1 := hwa.1
  have h2 := hwb.1
  rcases hs with h | h
  · exact h
  · unfold SepLt
    omega

theorem pairwise_sep_reverse {l : List CodePoint} (h : List.Pairwise sep l) :
    List.Pairwise sep l.reverse := by
  rw [List.pairwise_reverse]
  exact h.imp (fun hab => sep_symm hab)

/-- The union `L | M | N | S` as evaluated by Python (left-associated
in-place unions over copies). -/
def unionLMNS (l m n s : List CodePoint) : Option (List CodePoint) :=
  (iorList l m).bind fun u1 => (iorList u1 n).bind fun u2 => iorList u2 s

/-- One union step on separated operands: succeeds and yields the unique
strictly separated ordering of the combined entries. -/
theorem iorList_sep_step {a b : List CodePoint}
    (hwa : ∀ x ∈ a, WF x) (hpa : List.Pairwise SepLt a)
    (hwb : ∀ x ∈ b, WF x) (hpb : List.Pairwise sep b)
    (hcross : ∀ y ∈ b, ∀ x ∈ a, sep y x) :
    ∃ u, iorList a b = some u ∧ List.Perm u (a ++ b) ∧
      List.Pairwise SepLt u ∧ (∀ x ∈ u, WF x) := by
  obtain ⟨u, hu, hup, hupw, huw⟩ := foldAdd_insSep b.reverse a hwa hpa
    (fun y hy => ⟨hwb y (List.mem_reverse.1 hy), hcross y (List.mem_reverse.1 hy)⟩)
    (pairwise_sep_reverse hpb)
  exact ⟨u, hu, hup.trans ((List.reverse_perm b).append_left a), hupw, huw⟩

/-- On globally separated category data, the left-associated union of the
four categories equals the key-sorted concatenation of their entry lists
(which is what the installer assigns to the word shortcut). -/
theorem unionLMNS_eq_sortByKey {lE mE nE sE : List CodePoint}
    (hwf : ∀ x ∈ lE ++ mE ++ nE ++ sE, WF x)
    (hsep : List.Pairwise sep (lE ++ mE ++ nE ++ sE))
    (hpl : List.Pairwise SepLt lE) :
    unionLMNS lE mE nE sE = some (sortByKey (lE ++ mE ++ nE ++ sE)) := by
  have h1 := List.pairwise_append.1 hsep
  have h2 := List.pairwise_append.1 h1.1
  have h3 := List.pairwise_append.1 h2.1
  have hwl : ∀ x ∈ lE, WF x := fun x hx => hwf x (by simp [hx])
  have hwm : ∀ x ∈ mE, WF x := fun x hx => hwf x (by simp [hx])
  have hwn : ∀ x ∈ nE, WF x := fun x hx => hwf x (by simp [hx])
  have hws : ∀ x ∈ sE, WF x := fun x hx => hwf x (by simp [hx])
  obtain ⟨u1, hu1, hp1, hq1, hw1⟩ := iorList_sep_step hwl hpl hwm h3.2.1
    (fun y hy x hx => sep_symm (h3.2.2 x hx y hy))
  obtain ⟨u2, hu2, hp2, hq2, hw2⟩ := iorList_sep_step hw1 hq1 hwn h2.2.1
    (fun y hy x hx => sep_symm (h2.2.2 x (hp1.subset hx) y hy))
  obtain ⟨u3, hu3, hp3, hq3, hw3⟩ := iorList_sep_step hw2 hq2 hws h1.2.1
    (fun y hy x hx => by
      refine sep_symm (h1.2.2 x ?_ y hy)
      rcases List.mem_append.1 (hp2.subset hx) with h | h
      · exact List.mem_append.2 (Or.inl (hp1.subset h))
      · exact List.mem_append.2 (Or.inr h))
  have hfin : u3 = sortByKey (lE ++ mE ++ nE ++ sE) := by
    refine pairwise_sepLt_unique u3 (sortByKey (lE ++ mE ++ nE ++ sE)) ?_ hw3 hq3
      (sortByKey_pairwise_sepLt hwf hsep)
    refine (hp3.trans ?_).trans (List.perm_insertionSort _ _).symm
    exact List.Perm.append_right sE (hp2.trans (List.Perm.append_right nE hp1))
  rw [unionLMNS, hu1, Option.some_bind, hu2, Option.some_bind, hu3, hfin]

theorem sorted_pairwise_sepLt {l : List CodePoint}
    (hsorted : List.Sorted (fun a b => cp0 a ≤ cp0 b) l)
    (hwf : ∀ x ∈ l, WF x) (hsep : List.Pairwise sep l) : List.Pairwise SepLt l := by
  refine List.Pairwise.imp_of_mem ?_ (hsorted.and hsep)
  intro a b ha hb hab
  obtain ⟨hle, hs⟩ := hab
  have h1 := (hwf a ha).1
  have h2 := (hwf b hb).1
  rcases hs with h | h
  · exact h
  · unfold SepLt
    omega

/-- Every value of the installed categories table is a key-sorted list. -/
theorem lookupCat_map_sorted :
    ∀ (raw : List (String × List CodePoint)) (k : String) (v : List CodePoint),
      lookupCat (raw.map (fun p => (p.1, sortByKey p.2))) k = some v →
      List.Sorted (fun a b => cp0 a ≤ cp0 b) v := by
  intro raw
  induction raw with
  | nil => intro k v h; simp [lookupCat] at h
  | cons p raw' ih =>
    intro k v h
    simp only [List.map_cons, lookupCat, List.find?_cons] at h
    by_cases hk : p.1 = k
    · simp [hk] at h
      rw [← h]
      exact List.sorted_insertionSort _ _
    · simp [hk] at h
      exact ih k v (by simpa [lookupCat] using h)

/-- Inversion of a successful `install_unicode_categories` run: the final
state's parts in terms of the patched table. -/
theorem install_success_inv (runtimeVersion : List Nat) (m : CategoriesModule)
    (st st' : RegistryState)
    (h : installUnicodeCategories runtimeVersion m st = (none, st')) :
    ∃ raw ndE lE mE nE sE,
      applyDiffs runtimeVersion m.diffs m.rawCategories = some raw ∧
      st'.categories = raw.map (fun p => (p.1, sortByKey p.2)) ∧
      lookupCat st'.categories "Nd" = some ndE ∧
      lookupCat st'.categories "L" = some lE ∧
      lookupCat st'.categories "M" = some mE ∧
      lookupCat st'.categories "N" = some nE ∧
      lookupCat st'.categories "S" = some sE ∧
      st'.dShortcut = sortByKey ndE ∧
      st'.wShortcut = sortByKey (lE ++ mE ++ nE ++ sE) := by
  unfold installUnicodeCategories at h
  split at h
  · simp at h
  · split at h
    · simp at h
    · split at h
      · simp at h
      · split at h
        · rw [Prod.mk.injEq] at h
          obtain ⟨-, hst⟩ := h
          subst hst
          exact ⟨_, _, _, _, _, _, by assumption, rfl, by assumption, by assumption,
            by assumption, by assumption, by assumption, rfl, rfl⟩
        · simp at h

instance : DecidableRel sep := fun a b =>
  inferInstanceAs (Decidable (cp1 a < cp0 b ∨ cp1 b < cp0 a))

/-- Unfolding of the parse loop on an ordinary character (not a hyphen,
metacharacter, bracket or backslash). -/
theorem parseLoop_plain (expand : Bool) (fuel : Nat) (escaped onRange : Bool) (char : Char)
    (k : Nat) (c : Char) (rest : List Char)
    (h1 : ¬ c = '-') (h2 : ¬ c ∈ metaChars) (h3 : ¬ (c = '[' ∨ c = ']')) (h4 : ¬ c = '\\') :
    parseLoop expand (fuel + 1) escaped onRange char k (c :: rest) =
      (parseLoop expand fuel false false c (k + 1) rest).map
        (fun r => (if escaped then [CodePoint.int 92] else []) ++
          (if rest.length ≤ 1 ∨ rest.head? ≠ some '-' then [CodePoint.int c.toNat] else []) ++
          r) := by
  rw [parseLoop.eq_def]
  simp only
  rw [if_neg h1, if_neg h2, if_neg h3, if_neg h4]

/-! ### Claims -/

/-- C1 counterexample: the canonical subset with the two scalar entries 5
and 6 (sorted, non-overlapping) is rebuilt by the double complement as the
single range `(5, 7)`, so literal entry-list equality with the original
fails. -/
theorem claim_C1_counterexample :
    Canon [CodePoint.int 5, CodePoint.int 6] ∧
    doubleComplement [CodePoint.int 5, CodePoint.int 6] = some [CodePoint.rng 5 7] ∧
    ([CodePoint.rng 5 7] : List CodePoint) ≠ [CodePoint.int 5, CodePoint.int 6] := by
  refine ⟨by decide, ?_, by decide⟩
  rfl

/-- C1 (amended): for a canonical subset, building a subset from
`complement()` and building again from that subset's `complement()`
succeeds and restores a subset with exactly the same code points
(semantic equality); literal entry-list equality can fail because of
representation changes (see the counterexample). -/
theorem claim_C1 {l : List CodePoint} (hc : Canon l) :
    ∃ r, doubleComplement l = some r ∧ ∀ m, memSem m r = memSem m l := by
  obtain ⟨r, h1, _, h2⟩ := doubleComplement_spec hc
  exact ⟨r, h1, h2⟩

theorem claim_C1_witness :
    ∃ r, doubleComplement [CodePoint.rng 5 8] = some r ∧
      ∀ m, memSem m r = memSem m [CodePoint.rng 5 8] :=
  claim_C1 (by decide)

/-- C2 counterexample: adding the valid range `(0, 20)` to the canonical
subset `{[0, 5), [10, 15)}` produces `{[0, 10), [10, 20)}`, in which the
first entry's end equals the second entry's start — the overlapped
entries are not merged into a single widened entry. -/
theorem claim_C2_counterexample :
    Canon [CodePoint.rng 0 5, CodePoint.rng 10 15] ∧
    addFull (CodePoint.rng 0 20) [CodePoint.rng 0 5, CodePoint.rng 10 15] =
      some [CodePoint.rng 0 10, CodePoint.rng 10 20] ∧
    ¬ StrictOrdered [CodePoint.rng 0 10, CodePoint.rng 10 20] := by
  refine ⟨by decide, by rfl, by decide⟩

/-- C2 (amended): on a canonical subset (entries well formed, sorted,
non-overlapping in the half-open sense), `add` with a valid scalar or
range succeeds, keeps the list canonical (sorted, each entry's end at
most the next entry's start), and adds exactly the requested span;
touching entries (end equal to the next start) can remain when one add
spans several existing entries. -/
theorem claim_C2 {l : List CodePoint} {v : CodePoint} (hc : Canon l) (hwf : WF v) :
    ∃ r, addFull v l = some r ∧ Canon r ∧
      ∀ m, MemP m r ↔ (MemP m l ∨ (cp0 v ≤ m ∧ m < cp1 v)) :=
  addFull_spec hc hwf

theorem claim_C2_witness :
    ∃ r, addFull (CodePoint.rng 0 20) [CodePoint.rng 0 5, CodePoint.rng 10 15] = some r ∧
      Canon r ∧
      ∀ m, MemP m r ↔ (MemP m [CodePoint.rng 0 5, CodePoint.rng 10 15] ∨
        (cp0 (CodePoint.rng 0 20) ≤ m ∧ m < cp1 (CodePoint.rng 0 20))) :=
  claim_C2 (by decide) (by decide)

/-- C4 counterexample: for the overlapping (hence non-canonical, but
constructible) subset `[(0, 10), 3]`, `add(5)` and then `discard(5)` both
leave the list unchanged, and the membership test still reports 5 as
present after the discard. -/
theorem claim_C4_counterexample :
    addFull (CodePoint.int 5) [CodePoint.rng 0 10, CodePoint.int 3] =
      some [CodePoint.rng 0 10, CodePoint.int 3] ∧
    discardFull (CodePoint.int 5) [CodePoint.rng 0 10, CodePoint.int 3] =
      some [CodePoint.rng 0 10, CodePoint.int 3] ∧
    containsCp 5 [CodePoint.rng 0 10, CodePoint.int 3] = true := by
  refine ⟨by rfl, by rfl, by decide⟩

/-- C4 (amended): on a canonical subset, for any scalar in the Unicode
domain, `add` makes membership true and a subsequent `discard` makes it
false. -/
theorem claim_C4 {l : List CodePoint} (hc : Canon l) {v : Nat} (hv : v ≤ maxunicode) :
    ∃ l1 l2, addFull (CodePoint.int v) l = some l1 ∧ containsCp v l1 = true ∧
      discardFull (CodePoint.int v) l1 = some l2 ∧ containsCp v l2 = false := by
  have hwf : WF (CodePoint.int v) := ⟨by simp [cp0_int, cp1_int], by simp [cp1_int]; omega⟩
  obtain ⟨l1, h1, hc1, hm1⟩ := addFull_spec hc hwf
  obtain ⟨l2, h2, hc2, hm2⟩ := discardFull_spec hc1 hwf
  refine ⟨l1, l2, h1, ?_, h2, ?_⟩
  · rw [containsCp_eq_memSem hc1 v, memSem_iff, hm1 v]
    exact Or.inr ⟨by simp [cp0_int], by simp [cp1_int]⟩
  · rw [containsCp_eq_memSem hc2 v, Bool.eq_false_iff, Ne, memSem_iff, hm2 v]
    rintro ⟨-, hno⟩
    exact hno ⟨by simp [cp0_int], by simp [cp1_int]⟩

theorem claim_C4_witness :
    ∃ l1 l2, addFull (CodePoint.int 3) [CodePoint.rng 0 5] = some l1 ∧
      containsCp 3 l1 = true ∧
      discardFull (CodePoint.int 3) l1 = some l2 ∧ containsCp 3 l2 = false :=
  claim_C4 (by decide) (by decide)

/-- C5 counterexample: the subset `[4, (5, 9)]` is canonical (sorted,
non-overlapping), yet `A | A` rewrites the touching scalar entry 4 as the
range `(4, 5)`, so the union of the set with itself is not literally
equal to the set. -/
theorem claim_C5_counterexample :
    Canon [CodePoint.int 4, CodePoint.rng 5 9] ∧
    iorList [CodePoint.int 4, CodePoint.rng 5 9] [CodePoint.int 4, CodePoint.rng 5 9] =
      some [CodePoint.rng 4 5, CodePoint.rng 5 9] ∧
    ([CodePoint.rng 4 5, CodePoint.rng 5 9] : List CodePoint) ≠
      [CodePoint.int 4, CodePoint.rng 5 9] := by
  refine ⟨by decide, by rfl, by decide⟩

/-- C5 (amended): on a strictly separated canonical subset (sorted,
non-overlapping and non-touching entries), the self-algebra identities
hold literally: `A | A == A`, `A & A == A`, `A ^ A` is empty and `A - A`
is empty. -/
theorem claim_C5 {l : List CodePoint} (hs : StrictCanon l) :
    iorList l l = some l ∧ iandList l l = some l ∧
    ixorList l l = some [] ∧ isubList l l = some [] :=
  ⟨iorList_self hs, iandList_self hs, ixorList_self hs, isubList_self hs⟩

theorem claim_C5_witness :
    iorList [CodePoint.int 4, CodePoint.rng 6 9] [CodePoint.int 4, CodePoint.rng 6 9] =
      some [CodePoint.int 4, CodePoint.rng 6 9] ∧
    iandList [CodePoint.int 4, CodePoint.rng 6 9] [CodePoint.int 4, CodePoint.rng 6 9] =
      some [CodePoint.int 4, CodePoint.rng 6 9] ∧
    ixorList [CodePoint.int 4, CodePoint.rng 6 9] [CodePoint.int 4, CodePoint.rng 6 9] =
      some [] ∧
    isubList [CodePoint.int 4, CodePoint.rng 6 9] [CodePoint.int 4, CodePoint.rng 6 9] =
      some [] :=
  claim_C5 (by decide)

/-- C6: parsing `"z-a"` fails with a malformed-range error at position 0,
and parsing `"a-\\d"` fails with a malformed-range error at position 0,
in both range-expansion modes; the parser is a pure function, so the
errors are deterministic, and the error value carries the reported
position. -/
theorem claim_C6 :
    ∀ expand : Bool,
      iterparseCharacterSubset expand ['z', '-', 'a'] =
        Except.error (RegexErr.badRange 0) ∧
      iterparseCharacterSubset expand ['a', '-', '\\', 'd'] =
        Except.error (RegexErr.badRange 0) := by
  decide

/-- C7: parsing `"a-z"` without range expansion yields exactly the single
half-open range `(97, 123)`; with range expansion it yields exactly the
scalars 97 through 122 in ascending order; and parsing `"a-z-"` yields
the range `(97, 123)` followed by the literal scalar 45 for the trailing
hyphen. -/
theorem claim_C7 :
    iterparseCharacterSubset false ['a', '-', 'z'] = Except.ok [CodePoint.rng 97 123] ∧
    iterparseCharacterSubset true ['a', '-', 'z'] =
      Except.ok ((List.range' 97 26).map CodePoint.int) ∧
    iterparseCharacterSubset false ['a', '-', 'z', '-'] =
      Except.ok [CodePoint.rng 97 123, CodePoint.int 45] := by
  refine ⟨by rfl, by rfl, by rfl⟩

/-- C8: when the provider module's minimum Unicode version exceeds the
runtime's version (tuple-lexicographic comparison of the dot-separated
integer components), installation fails with the configuration error and
returns with the whole registry state — category table and both derived
shortcut subsets — unchanged. -/
theorem claim_C8 (runtimeVersion : List Nat) (m : CategoriesModule) (st : RegistryState)
    (h : lexLt runtimeVersion m.minVersion = true) :
    installUnicodeCategories runtimeVersion m st = (some InstallError.versionTooHigh, st) := by
  unfold installUnicodeCategories
  rw [if_pos h]

theorem claim_C8_witness :
    installUnicodeCategories [15, 0] ⟨[16, 0], [], []⟩
      ⟨[("L", [CodePoint.int 5])], [CodePoint.int 1], [CodePoint.int 2]⟩ =
      (some InstallError.versionTooHigh,
        ⟨[("L", [CodePoint.int 5])], [CodePoint.int 1], [CodePoint.int 2]⟩) :=
  claim_C8 [15, 0] ⟨[16, 0], [], []⟩ _ (by decide)

/-- C9: for a backslash followed by any ordinary character — not a
hyphen, backslash, bracket, or one of the metacharacters
`| . ^ ? * + { } ( )` — the parser emits the backslash's code point 92
followed by the character's code point, in both expansion modes. -/
theorem claim_C9 (c : Char) (expand : Bool)
    (h : c ∉ ['-', '\\', '[', ']'] ++ metaChars) :
    iterparseCharacterSubset expand ['\\', c] =
      Except.ok [CodePoint.int 92, CodePoint.int c.toNat] := by
  have h1 : ¬ c = '-' := fun e => h (by simp [e])
  have h4 : ¬ c = '\\' := fun e => h (by simp [e])
  have h3 : ¬ (c = '[' ∨ c = ']') := fun e => by
    rcases e with e | e <;> exact h (by simp [e])
  have h2 : ¬ c ∈ metaChars := fun e => h (by simp [e])
  show parseLoop expand 2 true false '\\' 1 [c] = _
  rw [show (2 : Nat) = 1 + 1 from rfl,
    parseLoop_plain expand 1 true false '\\' 1 c [] h1 h2 h3 h4]
  simp
  rfl

theorem claim_C9_witness :
    ('q' ∉ ['-', '\\', '[', ']'] ++ metaChars) ∧
    iterparseCharacterSubset false ['\\', 'q'] =
      Except.ok [CodePoint.int 92, CodePoint.int 'q'.toNat] :=
  ⟨by decide, claim_C9 'q' false (by decide)⟩

/-- C10 counterexample: a one-byte bytes value is neither an integer nor
a single-character string, yet Python's `ord` accepts it, so membership
does not return `False` for it: `b"a" in A` is true when 97 is in `A`. -/
theorem claim_C10_counterexample :
    containsValue (PyValue.pyBytes [97]) [CodePoint.int 97] = true := by
  decide

/-- C10 (amended): a value on which `ord` fails — anything that is
neither an integer, nor a one-character string, nor a one-byte
bytes-like value — makes the membership test return `False` without
raising; a one-character string (or one-byte bytes) is treated as the
integer code point of that character. -/
theorem claim_C10 :
    (∀ l, containsValue PyValue.pyOther l = false) ∧
    (∀ l cs, cs.length ≠ 1 → containsValue (PyValue.pyStr cs) l = false) ∧
    (∀ l bs, bs.length ≠ 1 → containsValue (PyValue.pyBytes bs) l = false) ∧
    (∀ l c, containsValue (PyValue.pyStr [c]) l = containsCp c.toNat l) ∧
    (∀ l b, containsValue (PyValue.pyBytes [b]) l = containsCp b l) := by
  refine ⟨fun l => rfl, ?_, ?_, fun l c => rfl, fun l b => rfl⟩
  · intro l cs hcs
    match cs with
    | [] => rfl
    | [c] => exact absurd rfl hcs
    | c :: c2 :: t => rfl
  · intro l bs hbs
    match bs with
    | [] => rfl
    | [b] => exact absurd rfl hbs
    | b :: b2 :: t => rfl

theorem claim_C10_witness :
    containsValue (PyValue.pyStr ['a', 'b']) [CodePoint.int 97] = false :=
  claim_C10.2.1 [CodePoint.int 97] ['a', 'b'] (by decide)

/-- C3 counterexample: with category data in which an `S` entry (scalar
96) touches an `L` entry (range `(97, 123)`), a successful installation
sets the word shortcut to the key-sorted concatenation
`[96, (97, 123)]`, while the merging union `L | M | N | S` yields the
single merged range `(96, 123)`; the two are not equal. -/
theorem claim_C3_counterexample :
    installUnicodeCategories [16, 0]
        ⟨[12, 1], [("Nd", [CodePoint.rng 48 58]), ("L", [CodePoint.rng 97 123]),
          ("M", []), ("N", []), ("S", [CodePoint.int 96])], []⟩ ⟨[], [], []⟩ =
      (none,
        ⟨[("Nd", [CodePoint.rng 48 58]), ("L", [CodePoint.rng 97 123]),
          ("M", []), ("N", []), ("S", [CodePoint.int 96])],
         [CodePoint.rng 48 58], [CodePoint.int 96, CodePoint.rng 97 123]⟩) ∧
    unionLMNS [CodePoint.rng 97 123] [] [] [CodePoint.int 96] =
      some [CodePoint.rng 96 123] ∧
    ([CodePoint.int 96, CodePoint.rng 97 123] : List CodePoint) ≠
      [CodePoint.rng 96 123] := by
  refine ⟨by rfl, by rfl, by decide⟩

/-- C3 (amended): after a successful installation, the decimal-digit
shortcut is literally equal to the installed category `Nd`
(unconditionally, hence non-empty whenever that category is non-empty);
and the word shortcut — computed by the code as the key-sorted
concatenation of the `L`, `M`, `N`, `S` entry lists — equals the merging
union `L | M | N | S` in that fixed order provided the four categories'
entries are well formed and pairwise separated (no two entries, within or
across the categories, overlap or touch). -/
theorem claim_C3 (runtimeVersion : List Nat) (m : CategoriesModule) (st st' : RegistryState)
    (ndE lE mE nE sE : List CodePoint)
    (hrun : installUnicodeCategories runtimeVersion m st = (none, st'))
    (hnd : lookupCat st'.categories "Nd" = some ndE)
    (hl : lookupCat st'.categories "L" = some lE)
    (hm : lookupCat st'.categories "M" = some mE)
    (hn : lookupCat st'.categories "N" = some nE)
    (hs : lookupCat st'.categories "S" = some sE) :
    st'.dShortcut = ndE ∧
    (ndE ≠ [] → st'.dShortcut ≠ []) ∧
    ((∀ x ∈ lE ++ mE ++ nE ++ sE, WF x) →
      List.Pairwise sep (lE ++ mE ++ nE ++ sE) →
      unionLMNS lE mE nE sE = some st'.wShortcut) := by
  obtain ⟨raw, nd', l', m', n', s', hraw, hcat, hnd', hl', hm', hn', hs', hd, hw⟩ :=
    install_success_inv runtimeVersion m st st' hrun
  have e0 : ndE = nd' := Option.some.inj (hnd.symm.trans hnd')
  have e1 : lE = l' := Option.some.inj (hl.symm.trans hl')
  have e2 : mE = m' := Option.some.inj (hm.symm.trans hm')
  have e3 : nE = n' := Option.some.inj (hn.symm.trans hn')
  have e4 : sE = s' := Option.some.inj (hs.symm.trans hs')
  subst e0 e1 e2 e3 e4
  have hndsorted : List.Sorted (fun a b => cp0 a ≤ cp0 b) ndE :=
    lookupCat_map_sorted raw "Nd" ndE (hcat ▸ hnd)
  have hdd : st'.dShortcut = ndE := by
    rw [hd]
    exact hndsorted.insertionSort_eq
  refine ⟨hdd, fun hne => by rw [hdd]; exact hne, fun hwf hsep => ?_⟩
  have hlsorted : List.Sorted (fun a b => cp0 a ≤ cp0 b) lE :=
    lookupCat_map_sorted raw "L" lE (hcat ▸ hl)
  have hsepl : List.Pairwise sep lE :=
    (List.pairwise_append.1 (List.pairwise_append.1 (List.pairwise_append.1 hsep).1).1).1
  have hpl : List.Pairwise SepLt lE :=
    sorted_pairwise_sepLt hlsorted (fun x hx => hwf x (by simp [hx])) hsepl
  rw [hw]
  exact unionLMNS_eq_sortByKey hwf hsep hpl

theorem claim_C3_witness :
    (⟨[("Nd", [CodePoint.rng 48 58]), ("L", [CodePoint.rng 97 123]),
       ("M", []), ("N", []), ("S", [CodePoint.int 95])],
      [CodePoint.rng 48 58], [CodePoint.int 95, CodePoint.rng 97 123]⟩ :
        RegistryState).dShortcut = [CodePoint.rng 48 58] ∧
    (([CodePoint.rng 48 58] : List CodePoint) ≠ [] →
      (⟨[("Nd", [CodePoint.rng 48 58]), ("L", [CodePoint.rng 97 123]),
        ("M", []), ("N", []), ("S", [CodePoint.int 95])],
       [CodePoint.rng 48 58], [CodePoint.int 95, CodePoint.rng 97 123]⟩ :
         RegistryState).dShortcut ≠ []) ∧
    ((∀ x ∈ ([CodePoint.rng 97 123] ++ [] ++ [] ++ [CodePoint.int 95] : List CodePoint), WF x) →
      List.Pairwise sep ([CodePoint.rng 97 123] ++ [] ++ [] ++ [CodePoint.int 95]) →
      unionLMNS [CodePoint.rng 97 123] [] [] [CodePoint.int 95] =
        some (⟨[("Nd", [CodePoint.rng 48 58]), ("L", [CodePoint.rng 97 123]),
          ("M", []), ("N", []), ("S", [CodePoint.int 95])],
          [CodePoint.rng 48 58], [CodePoint.int 95, CodePoint.rng 97 123]⟩ :
            RegistryState).wShortcut) :=
  claim_C3 [16, 0]
    ⟨[12, 1], [("Nd", [CodePoint.rng 48 58]), ("L", [CodePoint.rng 97 123]),
      ("M", []), ("N", []), ("S", [CodePoint.int 95])], []⟩
    ⟨[], [], []⟩ _ [CodePoint.rng 48 58] [CodePoint.rng 97 123] [] [] [CodePoint.int 95]
    (by rfl) (by rfl) (by rfl) (by rfl) (by rfl) (by rfl)

end UniSub
